import Mathlib

/-!
# IcePatch client: reconciliation walk and chunked fetch

A shallow embedding of `cpp/src/IcePatch/Client.cpp` (`Client::run`,
`Client::printNodeDescSeq`, `Client::getFile`) together with theorems about the
repair actions the walk performs, the chunk requests `getFile` issues, how errors
propagate, and which parts of the local filesystem the walk can touch.

Conventions of the embedding:

* A program is a function from the local filesystem to a `Result`: how it ended
  (`Status`), the filesystem it left, and the list of `Event`s (calls to the
  filesystem primitives and to the remote side) it performed, in order.
* A `removeRecursive` that fails may have removed part of the tree already;
  each such removal is an event of its own (`removeStep`), completed before
  the failure.
* Console output (`cout`, the `indent` argument, the `last` flag) is not modelled.
* The remote description is a finite tree: a directory node carries what its
  `getContents()` call answers, a file node carries its proxy and checksum.
* The loop of `getFile` takes a fuel argument; running out of fuel is the status
  `timeout`.
-/

namespace IcePatch

/-! ## Data model -/

/-- A sequence of bytes (`Ice::ByteSeq`); each byte is kept as a natural number. -/
abbrev ByteSeq := List Nat

/-- Modelled from the spec: a relative path (the `string path` that
`identityToPath` of `IcePatch/Util.h` yields), kept as its list of segments so that
"beneath a path" is list prefix. The working directory is the empty list. -/
abbrev Path := List String

/-- Exceptions that can travel through the client. `run` catches
`NodeAccessException` and nothing else. -/
inductive Exception where
  | NodeAccessException (reason : String)
  | other (name : String)
  deriving DecidableEq, Repr

/-- A proxy to a remote file (`FilePrx`): the path its identity maps to, and the
answer of the remote side to `getBytesBZ2(startPos, howMuch)`. -/
structure FilePrx where
  identity : Path
  getBytesBZ2 : Int → Int → Except Exception ByteSeq

/-- A node description (`NodeDescPtr`): `DirectoryDesc` holds the directory
proxy, given by the path of its identity and the answer to `getContents()`;
`FileDesc` holds the file proxy and the checksum of the remote content. -/
inductive NodeDesc where
  | directoryDesc (directory : Path) (getContents : Except Exception (List NodeDesc))
  | fileDesc (file : FilePrx) (md5 : ByteSeq)

/-- The local path of a node: `identityToPath` of the identity of its proxy. -/
def NodeDesc.path : NodeDesc → Path
  | .directoryDesc directory _ => directory
  | .fileDesc file _ => file.identity

/-- Whether the node is a `DirectoryDesc`. -/
def NodeDesc.isDirectory : NodeDesc → Bool
  | .directoryDesc _ _ => true
  | .fileDesc _ _ => false

/-- Modelled from the spec: what can be found at a local path, as far as the
primitives of `IcePatch/Util.h` distinguish it. -/
inductive Entry where
  | directory
  | regular (content : ByteSeq)
  | unknown
  deriving DecidableEq, Repr

/-- Modelled from the spec: the local filesystem below the working directory, as
a map from paths to entries (`none`: nothing exists at the path). -/
abbrev FileSystem := Path → Option Entry

/-- The result of `getFileInfo` (`enum FileInfo` of `IcePatch/Util.h`). -/
inductive FileInfo where
  | FileInfoNotExist
  | FileInfoDirectory
  | FileInfoRegular
  | FileInfoUnknown
  deriving DecidableEq, Repr

/-- An action outside the client: a call of a filesystem primitive, a remote
invocation, or (`removeStep`) one removal carried out by a `removeRecursive`
call that fails later on: the subtree at `path`, beneath the path of the call,
is gone. -/
inductive Action where
  | getFileInfo (path : Path)
  | createDirectory (path : Path)
  | removeRecursive (path : Path)
  | removeStep (path : Path)
  | getMD5 (path : Path)
  | getContents (directory : Path)
  | getBytesBZ2 (file : Path) (startPos howMuch : Int)
  | checkedCast
  | describe
  deriving DecidableEq, Repr

/-- A completed action: the call or removal together with the exception it
raised, if any. -/
structure Event where
  call : Action
  raised : Option Exception
  deriving DecidableEq, Repr

/-- Modelled from the spec: the surroundings of the filesystem primitives of
`IcePatch/Util.h`, which are not among the sources: the checksum function behind
`getMD5`; which primitive call fails (with which exception) in which filesystem
state; and, for a `removeRecursive` call that fails, the subtrees it has
already removed by then, in order (`removedFirst`, of which only paths
strictly beneath the path of the call count): a recursive removal that is
aborted leaves a tree that is removed in part. The queries `getFileInfo` and
`getMD5` never change the filesystem, and a `createDirectory` that fails has
created nothing. -/
structure Env where
  md5 : ByteSeq → ByteSeq
  fault : FileSystem → Action → Option Exception
  removedFirst : FileSystem → Path → List Path

/-! ## Programs -/

/-- How a program ended: it returned a value, an exception left it, an
`assert` failed, or the fuel of a loop ran out. -/
inductive Status (α : Type) where
  | done (value : α)
  | threw (ex : Exception)
  | aborted
  | timeout
  deriving DecidableEq, Repr

/-- The observable result of a program. -/
structure Result (α : Type) where
  status : Status α
  fs : FileSystem
  events : List Event

/-- A program over the local filesystem. -/
def Prog (α : Type) : Type := FileSystem → Result α

/-- Returning a value: no call, no change. -/
def Prog.pure {α : Type} (a : α) : Prog α :=
  fun fs => ⟨.done a, fs, []⟩

/-- Sequencing: the second program runs only if the first returned; the events
are concatenated in order. -/
def Prog.bind {α β : Type} (m : Prog α) (k : α → Prog β) : Prog β :=
  fun fs =>
    let r := m fs
    match r.status with
    | .done a =>
      let r2 := k a r.fs
      ⟨r2.status, r2.fs, r.events ++ r2.events⟩
    | .threw ex => ⟨.threw ex, r.fs, r.events⟩
    | .aborted => ⟨.aborted, r.fs, r.events⟩
    | .timeout => ⟨.timeout, r.fs, r.events⟩

instance : Monad Prog where
  pure := Prog.pure
  bind := Prog.bind

/-- A call that raises `ex` without having changed the filesystem: the
exception propagates. -/
def raise {α : Type} (call : Action) (ex : Exception) : Prog α :=
  fun fs => ⟨.threw ex, fs, [⟨call, some ex⟩]⟩

/-- A call that succeeds with value `a` and leaves the filesystem `fs2`. -/
def succeed {α : Type} (call : Action) (a : α) (fs2 : FileSystem) : Result α :=
  ⟨.done a, fs2, [⟨call, none⟩]⟩

/-- A failed `assert`. -/
def assertFailed {α : Type} : Prog α :=
  fun fs => ⟨.aborted, fs, []⟩

/-- The loop ran out of fuel. -/
def outOfFuel {α : Type} : Prog α :=
  fun fs => ⟨.timeout, fs, []⟩

/-! ## Filesystem primitives (`IcePatch/Util.h`) -/

/-- Modelled from the spec: the classification of a local path into the four
disjoint states. -/
def probe (fs : FileSystem) (path : Path) : FileInfo :=
  match fs path with
  | none => .FileInfoNotExist
  | some .directory => .FileInfoDirectory
  | some (.regular _) => .FileInfoRegular
  | some .unknown => .FileInfoUnknown

/-- Modelled from the spec: the filesystem after a directory has been created
at `path`. -/
def mkdir (fs : FileSystem) (path : Path) : FileSystem :=
  fun q => if q = path then some .directory else fs q

/-- Modelled from the spec: the filesystem after `path` and everything beneath
it has been removed. -/
def rmtree (fs : FileSystem) (path : Path) : FileSystem :=
  fun q => if path <+: q then none else fs q

/-- Modelled from the spec: `getFileInfo(path)` of `IcePatch/Util.h`, the local
state prober. It does not change the filesystem. -/
def getFileInfo (env : Env) (path : Path) : Prog FileInfo :=
  fun fs =>
    match env.fault fs (.getFileInfo path) with
    | some ex => raise (.getFileInfo path) ex fs
    | none => succeed (.getFileInfo path) (probe fs path) fs

/-- Modelled from the spec: `createDirectory(path)` of `IcePatch/Util.h`. A
call that fails has created nothing. -/
def createDirectory (env : Env) (path : Path) : Prog Unit :=
  fun fs =>
    match env.fault fs (.createDirectory path) with
    | some ex => raise (.createDirectory path) ex fs
    | none => succeed (.createDirectory path) () (mkdir fs path)

/-- The subtrees that a `removeRecursive(path)` failing in state `fs` has
removed before it fails: those named by the environment that lie strictly
beneath `path` (the entry at `path` itself is the last to go, so it is still
there when the call fails). -/
def removedBeforeFailure (env : Env) (fs : FileSystem) (path : Path) : List Path :=
  (env.removedFirst fs path).filter (fun q => decide (path <+: q ∧ q ≠ path))

/-- Modelled from the spec: `removeRecursive(path)` of `IcePatch/Util.h`. When
it succeeds, `path` and everything beneath it is gone. When it fails, the
subtrees it had already removed stay removed (each is recorded as a completed
`removeStep`), and the exception propagates. -/
def removeRecursive (env : Env) (path : Path) : Prog Unit :=
  fun fs =>
    match env.fault fs (.removeRecursive path) with
    | some ex =>
      let gone := removedBeforeFailure env fs path
      ⟨.threw ex, gone.foldl rmtree fs,
        gone.map (fun q => ⟨.removeStep q, none⟩) ++ [⟨.removeRecursive path, some ex⟩]⟩
    | none => succeed (.removeRecursive path) () (rmtree fs path)

/-- Modelled from the spec: `getMD5(path)` of `IcePatch/Util.h`, the checksum
of the full content of the regular file at `path`. Asked about anything else it
fails. -/
def getMD5 (env : Env) (path : Path) : Prog ByteSeq :=
  fun fs =>
    match env.fault fs (.getMD5 path) with
    | some ex => raise (.getMD5 path) ex fs
    | none =>
      match fs path with
      | some (.regular content) => succeed (.getMD5 path) (env.md5 content) fs
      | _ => raise (.getMD5 path) (.other "getMD5: not a regular file") fs

/-! ## Remote invocations -/

/-- The remote call `file->getBytesBZ2(startPos, howMuch)`. -/
def getBytesBZ2 (file : FilePrx) (startPos howMuch : Int) : Prog ByteSeq :=
  fun fs =>
    match file.getBytesBZ2 startPos howMuch with
    | .error ex => raise (.getBytesBZ2 file.identity startPos howMuch) ex fs
    | .ok bytes => succeed (.getBytesBZ2 file.identity startPos howMuch) bytes fs

/-- A remote call that answered: it is recorded and nothing else happens. -/
def answered (call : Action) : Prog Unit :=
  fun fs => succeed call () fs

/-! ## `Client::getFile` -/

/-- Conversion to `Ice::Int`, a 32-bit signed integer (two's complement). -/
def toInt32 (x : Int) : Int := (x + 2 ^ 31) % 2 ^ 32 - 2 ^ 31

/-- The `do ... while (!bytes.empty())` loop of `getFile`, from position `pos`:
request at most `256 * 1024` bytes at `pos`, advance `pos` by the number of
bytes received, stop when the answer is empty. The bytes are not used
otherwise. -/
def getFileLoop (file : FilePrx) : Nat → Int → Prog Unit
  | 0, _ => outOfFuel
  | fuel + 1, pos => do
    let bytes ← getBytesBZ2 file pos (256 * 1024)
    let pos2 := toInt32 (pos + bytes.length)
    if bytes.isEmpty then pure () else getFileLoop file fuel pos2

/-- The member function `Client::getFile`: the loop started with `pos = 0`. -/
def getFile (fuel : Nat) (file : FilePrx) : Prog Unit :=
  getFileLoop file fuel 0

/-! ## `Client::printNodeDescSeq` -/

mutual
/-- The body of the `for` loop of `printNodeDescSeq` for one node. -/
def printNodeDesc (env : Env) (fuel : Nat) : NodeDesc → Prog Unit
  | .directoryDesc path contents => do
    let info ← getFileInfo env path
    match info with
      | .FileInfoNotExist => createDirectory env path
      | .FileInfoDirectory => pure ()
      | .FileInfoRegular => do
        removeRecursive env path
        createDirectory env path
      | .FileInfoUnknown => do
        removeRecursive env path
        createDirectory env path
    descend env fuel path contents
  | .fileDesc file md5 => do
    let path := file.identity
    let info ← getFileInfo env path
    match info with
      | .FileInfoNotExist => getFile fuel file
      | .FileInfoDirectory => do
        removeRecursive env path
        getFile fuel file
      | .FileInfoRegular => do
        let md5Local ← getMD5 env path
        if md5Local ≠ md5 then do
          removeRecursive env path
          getFile fuel file
        else pure ()
      | .FileInfoUnknown => do
        removeRecursive env path
        getFile fuel file
/-- The end of the directory branch, the recursive call
`printNodeDescSeq(directoryDesc->directory->getContents(), newIndent)`: the
remote call `getContents()` and the walk of what it answers. -/
def descend (env : Env) (fuel : Nat) (path : Path) :
    Except Exception (List NodeDesc) → Prog Unit
  | .error ex => raise (.getContents path) ex
  | .ok seq => do
    answered (.getContents path)
    printNodeDescSeq env fuel seq
/-- The member function `Client::printNodeDescSeq`: the nodes of the sequence in
order, each directory followed at once by its contents. -/
def printNodeDescSeq (env : Env) (fuel : Nat) : List NodeDesc → Prog Unit
  | [] => pure ()
  | node :: rest => do
    printNodeDesc env fuel node
    printNodeDescSeq env fuel rest
end

/-! ## `Client::run` -/

/-- The value of `EXIT_SUCCESS`. -/
def EXIT_SUCCESS : Int := 0

/-- The value of `EXIT_FAILURE`. -/
def EXIT_FAILURE : Int := 1

/-- What `run` receives from outside: the command-line arguments after the
program name, the two properties it reads, whether `chdir` succeeds, and what
the remote side answers about the top node (`checkedCast`: an exception, or
whether the proxy is a `Node`; `describe`: an exception or the description). -/
structure Invocation where
  args : List String
  directory : String
  chdirOk : Bool
  endpoints : String
  checkedCast : Except Exception Bool
  describe : Except Exception NodeDesc

/-- The `try { ... } catch (const NodeAccessException&)` block of `run`: a
`NodeAccessException` becomes the return value `EXIT_FAILURE`, normal completion
falls through to `return EXIT_SUCCESS`, any other exception is not caught. -/
def catchNodeAccess (body : Prog Unit) : Prog Int :=
  fun fs =>
    let r := body fs
    match r.status with
    | .done _ => ⟨.done EXIT_SUCCESS, r.fs, r.events⟩
    | .threw (.NodeAccessException _) => ⟨.done EXIT_FAILURE, r.fs, r.events⟩
    | .threw (.other name) => ⟨.threw (.other name), r.fs, r.events⟩
    | .aborted => ⟨.aborted, r.fs, r.events⟩
    | .timeout => ⟨.timeout, r.fs, r.events⟩

/-- The body of the `try` block of `run`: obtain the top proxy and its
description, both asserted to be what is expected, then walk the contents of the
top directory. -/
def runBody (env : Env) (fuel : Nat) (inv : Invocation) : Prog Unit :=
  match inv.checkedCast with
  | .error ex => raise .checkedCast ex
  | .ok false => do
    answered .checkedCast
    assertFailed
  | .ok true => do
    answered .checkedCast
    match inv.describe with
      | .error ex => raise .describe ex
      | .ok (.fileDesc _ _) => do
        answered .describe
        assertFailed
      | .ok (.directoryDesc path contents) => do
        answered .describe
        descend env fuel path contents

/-- The member function `Client::run`: the first argument, if there is one, ends
the run (help, version, or an unknown option); then the working directory and
the endpoints are checked; then the walk runs inside the `try` block. -/
def run (env : Env) (fuel : Nat) (inv : Invocation) : Prog Int :=
  match inv.args with
  | arg :: _ =>
    if arg = "-h" ∨ arg = "--help" then pure EXIT_SUCCESS
    else if arg = "-v" ∨ arg = "--version" then pure EXIT_SUCCESS
    else pure EXIT_FAILURE
  | [] =>
    if inv.directory ≠ "" ∧ inv.chdirOk = false then pure EXIT_FAILURE
    else if inv.endpoints = "" then pure EXIT_FAILURE
    else catchNodeAccess (runBody env fuel inv)

/-! ## Vocabulary of the specification -/

/-- The event of a call that did not raise. -/
def Event.ok (call : Action) : Event := ⟨call, none⟩

/-- All events are calls that did not raise. -/
def Clean (events : List Event) : Prop := ∀ ev ∈ events, ev.raised = none

/-- The effect of one completed action on the local filesystem: a
`createDirectory` or `removeRecursive` that returned, and a `removeStep`,
change it; every other call, and every call at the moment it raises, leaves it
alone. -/
def Event.apply (ev : Event) (fs : FileSystem) : FileSystem :=
  match ev.raised, ev.call with
  | none, .createDirectory path => mkdir fs path
  | none, .removeRecursive path => rmtree fs path
  | none, .removeStep path => rmtree fs path
  | _, _ => fs

/-- The filesystem that a list of performed calls produces from `fs`. -/
def replay (fs : FileSystem) (events : List Event) : FileSystem :=
  events.foldl (fun acc ev => ev.apply acc) fs

mutual
/-- The node itself and all nodes of the remote tree below it. -/
def NodeDesc.nodes : NodeDesc → List NodeDesc
  | .directoryDesc path (.ok seq) => .directoryDesc path (.ok seq) :: nodesSeq seq
  | .directoryDesc path (.error ex) => [.directoryDesc path (.error ex)]
  | .fileDesc file md5 => [.fileDesc file md5]
/-- All nodes of the remote tree whose top level is the given sequence. -/
def nodesSeq : List NodeDesc → List NodeDesc
  | [] => []
  | node :: rest => node.nodes ++ nodesSeq rest
end

mutual
/-- Every directory of the subtree answers `getContents()`. -/
def NodeDesc.accessible : NodeDesc → Bool
  | .directoryDesc _ (.ok seq) => accessibleSeq seq
  | .directoryDesc _ (.error _) => false
  | .fileDesc _ _ => true
/-- Every directory of the tree answers `getContents()`. -/
def accessibleSeq : List NodeDesc → Bool
  | [] => true
  | node :: rest => node.accessible && accessibleSeq rest
end

mutual
/-- The paths in the subtree follow the tree: see `wellFormedSeq`. -/
def NodeDesc.wellFormed : NodeDesc → Bool
  | .directoryDesc path (.ok seq) => wellFormedSeq path seq
  | .directoryDesc _ (.error _) => true
  | .fileDesc _ _ => true
/-- The paths of the remote tree follow the tree: every node of the sequence
lies directly in `base` (its path is `base` plus one segment), no two nodes of
the sequence have the same path, and the same holds for the contents of every
directory, with the path of that directory as base. -/
def wellFormedSeq (base : Path) : List NodeDesc → Bool
  | [] => true
  | node :: rest =>
    decide (node.path ≠ [] ∧ node.path.dropLast = base)
      && rest.all (fun other => decide (other.path ≠ node.path))
      && node.wellFormed && wellFormedSeq base rest
end

/-- The repair column "Remote is Directory" of the specification: the calls
made, in order, at a directory node found in local state `info`. -/
def directoryRepair (info : FileInfo) (path : Path) : List Action :=
  match info with
  | .FileInfoNotExist => [.createDirectory path]
  | .FileInfoDirectory => []
  | .FileInfoRegular => [.removeRecursive path, .createDirectory path]
  | .FileInfoUnknown => [.removeRecursive path, .createDirectory path]

/-- Whether the regular file at `path` has the checksum `md5`. -/
def sameChecksum (env : Env) (fs : FileSystem) (path : Path) (md5 : ByteSeq) : Bool :=
  match fs path with
  | some (.regular content) => decide (env.md5 content = md5)
  | _ => false

/-- The repair column "Remote is File" of the specification, up to the fetch:
the calls made, in order, at a file node found in local state `info`, before
`getFile` is (or is not) called. -/
def fileRepair (env : Env) (fs : FileSystem) (info : FileInfo) (path : Path)
    (md5 : ByteSeq) : List Action :=
  match info with
  | .FileInfoNotExist => []
  | .FileInfoDirectory => [.removeRecursive path]
  | .FileInfoRegular =>
    if sameChecksum env fs path md5 then [.getMD5 path]
    else [.getMD5 path, .removeRecursive path]
  | .FileInfoUnknown => [.removeRecursive path]

/-- Whether the column "Remote is File" ends in a fetch: always, except for a
regular file with the right checksum. -/
def fileFetches (env : Env) (fs : FileSystem) (info : FileInfo) (path : Path)
    (md5 : ByteSeq) : Bool :=
  match info with
  | .FileInfoRegular => !sameChecksum env fs path md5
  | _ => true

/-- The local state at the path of a remote node is in conflict with the node:
a directory node meets a regular file or an unknown entry; a file node meets a
directory, an unknown entry, or a regular file with another checksum. -/
def Conflict (env : Env) (fs : FileSystem) : NodeDesc → Prop
  | .directoryDesc path _ =>
    probe fs path = .FileInfoRegular ∨ probe fs path = .FileInfoUnknown
  | .fileDesc file md5 =>
    probe fs file.identity = .FileInfoDirectory ∨ probe fs file.identity = .FileInfoUnknown
      ∨ (probe fs file.identity = .FileInfoRegular
          ∧ sameChecksum env fs file.identity md5 = false)

/-- Every action of the list is justified at the moment it is made, the list
being performed from filesystem `fs`: a `createDirectory` is at the path of a
remote directory node, where nothing exists at that moment; a `removeRecursive`
is at the path of a remote node with which the local state is at that moment in
conflict; a `removeStep` is strictly beneath the path of such a node; a chunk
request is for a remote file node at whose path nothing exists at that
moment. -/
def Justified (env : Env) (remote : List NodeDesc) : FileSystem → List Event → Prop
  | _, [] => True
  | fs, ev :: rest =>
    (match ev.call with
      | .createDirectory path =>
        probe fs path = .FileInfoNotExist
          ∧ ∃ n ∈ remote, n.isDirectory = true ∧ n.path = path
      | .removeRecursive path => ∃ n ∈ remote, n.path = path ∧ Conflict env fs n
      | .removeStep path =>
        ∃ n ∈ remote, n.path <+: path ∧ n.path ≠ path ∧ Conflict env fs n
      | .getBytesBZ2 path _ _ =>
        probe fs path = .FileInfoNotExist
          ∧ ∃ n ∈ remote, n.isDirectory = false ∧ n.path = path
      | _ => True)
    ∧ Justified env remote (ev.apply fs) rest

/-- The local state matches one remote node: at a directory node there is a
directory, at a file node a regular file with the checksum of the
description. -/
def Matches (env : Env) (fs : FileSystem) : NodeDesc → Prop
  | .directoryDesc path _ => fs path = some .directory
  | .fileDesc file md5 => ∃ content, fs file.identity = some (.regular content)
      ∧ env.md5 content = md5

/-- The local filesystem is in sync with the remote tree: it matches every
node. -/
def InSync (env : Env) (fs : FileSystem) (seq : List NodeDesc) : Prop :=
  ∀ n ∈ nodesSeq seq, Matches env fs n

/-- As `Matches`, but at a file node there may also be nothing at all. -/
def MatchesOrMissing (env : Env) (fs : FileSystem) : NodeDesc → Prop
  | .directoryDesc path _ => fs path = some .directory
  | .fileDesc file md5 => fs file.identity = none
      ∨ ∃ content, fs file.identity = some (.regular content) ∧ env.md5 content = md5

/-- The state the walk converges to: every remote directory is a local
directory, every remote file is locally either missing or a regular file with
the checksum of the description. -/
def SyncedUpToMissing (env : Env) (fs : FileSystem) (seq : List NodeDesc) : Prop :=
  ∀ n ∈ nodesSeq seq, MatchesOrMissing env fs n

/-- The action is a change of the local filesystem. -/
def Action.isRepair : Action → Bool
  | .createDirectory _ => true
  | .removeRecursive _ => true
  | .removeStep _ => true
  | _ => false

/-- The call is a chunk request. -/
def Action.isChunkRequest : Action → Bool
  | .getBytesBZ2 _ _ _ => true
  | _ => false

/-- The remote file answers the chunk requests at the offsets `pos`,
`pos + |c0|`, `pos + |c0| + |c1|`, ... with the non-empty chunks of the list, in
order, and the request after the last of them with the empty chunk. -/
def Answers (file : FilePrx) : Int → List ByteSeq → Prop
  | pos, [] => file.getBytesBZ2 pos (256 * 1024) = .ok []
  | pos, c :: rest =>
    c ≠ [] ∧ file.getBytesBZ2 pos (256 * 1024) = .ok c
      ∧ Answers file (pos + c.length) rest

/-- The offsets of the requests that fetch the given chunks from `pos`: one per
chunk, and one more for the empty answer. -/
def requestOffsets : Int → List ByteSeq → List Int
  | pos, [] => [pos]
  | pos, c :: rest => pos :: requestOffsets (pos + c.length) rest

/-- The number of compressed bytes in the chunks. -/
def totalSize (chunks : List ByteSeq) : Nat :=
  (chunks.map List.length).sum

/-- As `Answers`, with the offsets as `getFile` computes them in its 32-bit
`pos`. -/
def AnswersInt32 (file : FilePrx) : Int → List ByteSeq → Prop
  | pos, [] => file.getBytesBZ2 pos (256 * 1024) = .ok []
  | pos, c :: rest =>
    c ≠ [] ∧ file.getBytesBZ2 pos (256 * 1024) = .ok c
      ∧ AnswersInt32 file (toInt32 (pos + c.length)) rest

/-- A result is orderly with respect to the filesystem `fs` it started from: the
filesystem it left is the one its events produce from `fs`, and either no call
raised, or the last call raised the exception that is the status and no call
before it raised. -/
def Orderly {α : Type} (fs : FileSystem) (r : Result α) : Prop :=
  r.fs = replay fs r.events ∧
    ((Clean r.events ∧ ∀ ex, r.status ≠ .threw ex)
      ∨ ∃ pre call ex, r.events = pre ++ [⟨call, some ex⟩] ∧ Clean pre
          ∧ r.status = .threw ex)

/-- Every started-from filesystem gives an orderly result. -/
def OrderlyProg {α : Type} (m : Prog α) : Prop := ∀ fs, Orderly fs (m fs)

/-! ## Example inputs -/

/-- An environment in which no filesystem primitive fails; the checksum of a
content is its length followed by the sum of its bytes. -/
def exampleEnv : Env :=
  ⟨fun content => [content.length, content.sum], fun _ _ => none, fun _ _ => []⟩

/-- The remote file `a/b`: three bytes at offset 0, then the empty chunk. -/
def exampleFile : FilePrx :=
  ⟨["a", "b"], fun pos _ => if pos = 0 then .ok [1, 2, 3] else .ok []⟩

/-- The checksum `H` that the remote side announces for `a/b`. -/
def exampleDigest : ByteSeq := [3, 6]

/-- The remote tree of the scenarios: directory `a` with the file `a/b`. -/
def exampleTree : List NodeDesc :=
  [.directoryDesc ["a"] (.ok [.fileDesc exampleFile exampleDigest])]

/-- An empty working directory. -/
def emptyFs : FileSystem := fun _ => none

/-- A working directory that already holds `a` and `a/b` with checksum `H`. -/
def syncedFs : FileSystem := fun q =>
  if q = ["a"] then some .directory
  else if q = ["a", "b"] then some (.regular [1, 2, 3])
  else none

/-- A working directory with a regular file at `a`. -/
def conflictFs : FileSystem := fun q =>
  if q = ["a"] then some (.regular [9]) else none

/-- A working directory with the directory `a`, holding a stale `a/b` and an
entry `a/x` that the remote tree does not know. -/
def extraFs : FileSystem := fun q =>
  if q = ["a"] then some .directory
  else if q = ["a", "b"] then some (.regular [4])
  else if q = ["a", "x"] then some (.regular [5])
  else none

/-- A remote file whose every chunk request fails in the transport. -/
def brokenFile : FilePrx :=
  ⟨["b"], fun _ _ => .error (.other "Ice::ConnectionLostException")⟩

/-- An invocation without arguments whose top directory holds `brokenFile`. -/
def brokenInvocation : Invocation where
  args := []
  directory := ""
  chdirOk := true
  endpoints := "tcp -p 10000"
  checkedCast := .ok true
  describe := .ok (.directoryDesc [] (.ok [.fileDesc brokenFile exampleDigest]))

/-- An environment in which removing the tree at `a` fails after the subtree
`a/x` has been removed (`c` is named too, but does not lie beneath `a`). -/
def abortingEnv : Env :=
  ⟨fun content => [content.length, content.sum],
    fun _ call => if call = .removeRecursive ["a"]
      then some (.NodeAccessException "cannot remove directory") else none,
    fun _ _ => [["a", "x"], ["c"]]⟩

/-- A remote tree whose only node is a file at `a`. -/
def fileAtA : List NodeDesc :=
  [.fileDesc ⟨["a"], fun _ _ => .ok []⟩ exampleDigest]

/-! ## Programs: basic facts -/

theorem tree_induction {P : NodeDesc → Prop} {Q : List NodeDesc → Prop}
    (hdirErr : ∀ p e, P (.directoryDesc p (.error e)))
    (hdirOk : ∀ p cs, Q cs → P (.directoryDesc p (.ok cs)))
    (hfile : ∀ f m, P (.fileDesc f m))
    (hnil : Q [])
    (hcons : ∀ n rest, P n → Q rest → Q (n :: rest)) : (∀ n, P n) ∧ (∀ s, Q s) := by
  have hP : ∀ n, P n := by
    intro n
    refine NodeDesc.rec (motive_1 := P)
      (motive_2 := fun gc => ∀ p, P (.directoryDesc p gc))
      (motive_3 := Q) ?_ ?_ ?_ ?_ ?_ ?_ n
    · intro p gc ih; exact ih p
    · intro f m; exact hfile f m
    · intro e p; exact hdirErr p e
    · intro cs ih p; exact hdirOk p cs ih
    · exact hnil
    · intro n rest ihn ihr; exact hcons n rest ihn ihr
  refine ⟨hP, ?_⟩
  intro s
  induction s with
  | nil => exact hnil
  | cons n rest ih => exact hcons n rest (hP n) ih

theorem bind_run {α β : Type} (m : Prog α) (k : α → Prog β) (fs : FileSystem) :
    (m >>= k) fs = Prog.bind m k fs := rfl

theorem pure_run {α : Type} (a : α) (fs : FileSystem) :
    (pure a : Prog α) fs = ⟨.done a, fs, []⟩ := rfl

theorem bind_of_done {α β : Type} {m : Prog α} {k : α → Prog β} {fs : FileSystem} {a : α}
    (h : (m fs).status = .done a) :
    (m >>= k) fs
      = ⟨(k a (m fs).fs).status, (k a (m fs).fs).fs, (m fs).events ++ (k a (m fs).fs).events⟩ := by
  simp only [bind_run, Prog.bind, h]

theorem bind_of_threw {α β : Type} {m : Prog α} {k : α → Prog β} {fs : FileSystem}
    {ex : Exception} (h : (m fs).status = .threw ex) :
    (m >>= k) fs = ⟨.threw ex, (m fs).fs, (m fs).events⟩ := by
  simp only [bind_run, Prog.bind, h]

theorem bind_of_aborted {α β : Type} {m : Prog α} {k : α → Prog β} {fs : FileSystem}
    (h : (m fs).status = .aborted) :
    (m >>= k) fs = ⟨.aborted, (m fs).fs, (m fs).events⟩ := by
  simp only [bind_run, Prog.bind, h]

theorem bind_of_timeout {α β : Type} {m : Prog α} {k : α → Prog β} {fs : FileSystem}
    (h : (m fs).status = .timeout) :
    (m >>= k) fs = ⟨.timeout, (m fs).fs, (m fs).events⟩ := by
  simp only [bind_run, Prog.bind, h]

theorem replay_nil (fs : FileSystem) : replay fs [] = fs := rfl

theorem replay_cons (fs : FileSystem) (ev : Event) (rest : List Event) :
    replay fs (ev :: rest) = replay (ev.apply fs) rest := rfl

theorem replay_append (fs : FileSystem) (xs ys : List Event) :
    replay fs (xs ++ ys) = replay (replay fs xs) ys := by
  simp [replay, List.foldl_append]

theorem clean_nil : Clean [] := by
  intro ev h; cases h

theorem clean_append {xs ys : List Event} : Clean (xs ++ ys) ↔ Clean xs ∧ Clean ys := by
  simp [Clean, List.mem_append, or_imp, forall_and]

theorem orderlyProg_pure {α : Type} (a : α) : OrderlyProg (pure a : Prog α) := by
  intro fs
  refine ⟨rfl, Or.inl ⟨clean_nil, ?_⟩⟩
  intro ex h; simp [pure_run] at h

theorem orderlyProg_raise {α : Type} (call : Action) (ex : Exception) :
    OrderlyProg (raise call ex : Prog α) := by
  intro fs
  refine ⟨rfl, Or.inr ⟨[], call, ex, rfl, clean_nil, rfl⟩⟩

theorem orderlyProg_bind {α β : Type} {m : Prog α} {k : α → Prog β}
    (hm : OrderlyProg m) (hk : ∀ a, OrderlyProg (k a)) : OrderlyProg (m >>= k) := by
  intro fs
  obtain ⟨hfs, hev⟩ := hm fs
  rcases hst : (m fs).status with a | ex | _ | _
  · obtain ⟨hfs2, hev2⟩ := hk a (m fs).fs
    rw [bind_of_done hst]
    rcases hev with ⟨hc, _⟩ | ⟨pre, call, ex, _, _, h⟩
    · refine ⟨?_, ?_⟩
      · simp only [replay_append, ← hfs, hfs2]
      · rcases hev2 with ⟨hc2, hn2⟩ | ⟨pre2, call2, ex2, he2, hc2, hs2⟩
        · exact Or.inl ⟨clean_append.2 ⟨hc, hc2⟩, hn2⟩
        · refine Or.inr ⟨(m fs).events ++ pre2, call2, ex2, ?_, clean_append.2 ⟨hc, hc2⟩, hs2⟩
          simp only [he2, List.append_assoc]
    · rw [hst] at h; cases h
  · rw [bind_of_threw hst]
    refine ⟨hfs, ?_⟩
    rcases hev with ⟨_, hn⟩ | ⟨pre, call, ex2, he, hc, h⟩
    · exact absurd hst (hn ex)
    · rw [hst] at h
      cases h
      exact Or.inr ⟨pre, call, ex, he, hc, rfl⟩
  · rw [bind_of_aborted hst]
    refine ⟨hfs, ?_⟩
    rcases hev with ⟨hc, _⟩ | ⟨pre, call, ex2, he, hc, h⟩
    · refine Or.inl ⟨hc, ?_⟩
      intro ex h; cases h
    · rw [hst] at h; cases h
  · rw [bind_of_timeout hst]
    refine ⟨hfs, ?_⟩
    rcases hev with ⟨hc, _⟩ | ⟨pre, call, ex2, he, hc, h⟩
    · refine Or.inl ⟨hc, ?_⟩
      intro ex h; cases h
    · rw [hst] at h; cases h

theorem orderly_succeed {α : Type} (call : Action) (a : α) (fs fs2 : FileSystem)
    (h : fs2 = (Event.ok call).apply fs) : Orderly fs (succeed call a fs2) := by
  refine ⟨?_, Or.inl ⟨?_, ?_⟩⟩
  · simp [succeed, replay, h, Event.ok]
  · simp [succeed, Clean]
  · intro ex h; simp [succeed] at h

theorem orderlyProg_getFileInfo (env : Env) (path : Path) :
    OrderlyProg (getFileInfo env path) := by
  intro fs
  unfold getFileInfo
  cases env.fault fs (.getFileInfo path) with
  | some ex => exact orderlyProg_raise _ ex fs
  | none => exact orderly_succeed _ _ _ _ rfl

theorem orderlyProg_createDirectory (env : Env) (path : Path) :
    OrderlyProg (createDirectory env path) := by
  intro fs
  unfold createDirectory
  cases env.fault fs (.createDirectory path) with
  | some ex => exact orderlyProg_raise _ ex fs
  | none => exact orderly_succeed _ _ _ _ rfl

theorem replay_removeSteps (gone : List Path) :
    ∀ fs, replay fs (gone.map (fun q => (⟨.removeStep q, none⟩ : Event)))
      = gone.foldl rmtree fs := by
  induction gone with
  | nil => intro fs; rfl
  | cons q rest ih => intro fs; exact ih (rmtree fs q)

theorem clean_removeSteps (gone : List Path) :
    Clean (gone.map (fun q => (⟨.removeStep q, none⟩ : Event))) := by
  intro ev hev
  obtain ⟨q, _, rfl⟩ := List.mem_map.1 hev
  rfl

theorem removeRecursive_of_fault {env : Env} {path : Path} {fs : FileSystem}
    {ex : Exception} (h : env.fault fs (.removeRecursive path) = some ex) :
    removeRecursive env path fs
      = ⟨.threw ex, (removedBeforeFailure env fs path).foldl rmtree fs,
          (removedBeforeFailure env fs path).map (fun q => ⟨.removeStep q, none⟩)
            ++ [⟨.removeRecursive path, some ex⟩]⟩ := by
  simp only [removeRecursive, h]

theorem removeRecursive_of_no_fault {env : Env} {path : Path} {fs : FileSystem}
    (h : env.fault fs (.removeRecursive path) = none) :
    removeRecursive env path fs = succeed (.removeRecursive path) () (rmtree fs path) := by
  simp only [removeRecursive, h]

theorem orderlyProg_removeRecursive (env : Env) (path : Path) :
    OrderlyProg (removeRecursive env path) := by
  intro fs
  cases hf : env.fault fs (.removeRecursive path) with
  | some ex =>
    rw [removeRecursive_of_fault hf]
    refine ⟨?_, Or.inr ⟨_, .removeRecursive path, ex, rfl, clean_removeSteps _, rfl⟩⟩
    show _ = replay fs (_ ++ _)
    rw [replay_append, replay_removeSteps]
    rfl
  | none =>
    rw [removeRecursive_of_no_fault hf]
    exact orderly_succeed _ _ _ _ rfl

theorem orderlyProg_getMD5 (env : Env) (path : Path) :
    OrderlyProg (getMD5 env path) := by
  intro fs
  unfold getMD5
  cases env.fault fs (.getMD5 path) with
  | some ex => exact orderlyProg_raise _ ex fs
  | none =>
    dsimp only
    split
    · exact orderly_succeed _ _ _ _ rfl
    · exact orderlyProg_raise _ _ fs

theorem orderlyProg_getBytesBZ2 (file : FilePrx) (pos howMuch : Int) :
    OrderlyProg (getBytesBZ2 file pos howMuch) := by
  intro fs
  unfold getBytesBZ2
  cases file.getBytesBZ2 pos howMuch with
  | error ex => exact orderlyProg_raise _ ex fs
  | ok bytes => exact orderly_succeed _ _ _ _ rfl

theorem orderlyProg_answered (call : Action) (h : call.isRepair = false) :
    OrderlyProg (answered call) := by
  intro fs
  refine orderly_succeed _ _ _ _ ?_
  cases call <;> first | rfl | cases h

theorem orderlyProg_outOfFuel {α : Type} : OrderlyProg (outOfFuel : Prog α) := by
  intro fs
  refine ⟨rfl, Or.inl ⟨clean_nil, ?_⟩⟩
  intro ex h; cases h

theorem orderlyProg_assertFailed {α : Type} : OrderlyProg (assertFailed : Prog α) := by
  intro fs
  refine ⟨rfl, Or.inl ⟨clean_nil, ?_⟩⟩
  intro ex h; cases h

theorem orderlyProg_getFileLoop (file : FilePrx) (fuel : Nat) :
    ∀ pos, OrderlyProg (getFileLoop file fuel pos) := by
  induction fuel with
  | zero => intro pos; exact orderlyProg_outOfFuel
  | succ n ih =>
    intro pos
    rw [getFileLoop]
    refine orderlyProg_bind (orderlyProg_getBytesBZ2 _ _ _) ?_
    intro bytes
    dsimp only
    split
    · exact orderlyProg_pure _
    · exact ih _

theorem orderlyProg_getFile (fuel : Nat) (file : FilePrx) : OrderlyProg (getFile fuel file) :=
  orderlyProg_getFileLoop file fuel 0

theorem orderlyProg_walk (env : Env) (fuel : Nat) :
    (∀ n, OrderlyProg (printNodeDesc env fuel n))
      ∧ ∀ seq, OrderlyProg (printNodeDescSeq env fuel seq) := by
  apply tree_induction
  · intro p e
    rw [printNodeDesc]
    refine orderlyProg_bind (orderlyProg_getFileInfo _ _) ?_
    intro info
    have hk : ∀ y : Unit, OrderlyProg
        ((fun _ => raise (.getContents p) e : Unit → Prog Unit) y) :=
      fun _ => orderlyProg_raise _ _
    cases info
    · exact orderlyProg_bind (orderlyProg_createDirectory _ _) hk
    · exact orderlyProg_bind (orderlyProg_pure _) hk
    · exact orderlyProg_bind (orderlyProg_removeRecursive _ _)
        (fun _ => orderlyProg_bind (orderlyProg_createDirectory _ _) hk)
    · exact orderlyProg_bind (orderlyProg_removeRecursive _ _)
        (fun _ => orderlyProg_bind (orderlyProg_createDirectory _ _) hk)
  · intro p cs ih
    rw [printNodeDesc]
    refine orderlyProg_bind (orderlyProg_getFileInfo _ _) ?_
    intro info
    have hk : ∀ y : Unit, OrderlyProg
        ((fun _ => do answered (.getContents p); printNodeDescSeq env fuel cs :
          Unit → Prog Unit) y) :=
      fun _ => orderlyProg_bind (orderlyProg_answered _ rfl) (fun _ => ih)
    cases info
    · exact orderlyProg_bind (orderlyProg_createDirectory _ _) hk
    · exact orderlyProg_bind (orderlyProg_pure _) hk
    · exact orderlyProg_bind (orderlyProg_removeRecursive _ _)
        (fun _ => orderlyProg_bind (orderlyProg_createDirectory _ _) hk)
    · exact orderlyProg_bind (orderlyProg_removeRecursive _ _)
        (fun _ => orderlyProg_bind (orderlyProg_createDirectory _ _) hk)
  · intro f m
    rw [printNodeDesc]
    refine orderlyProg_bind (orderlyProg_getFileInfo _ _) ?_
    intro info
    cases info
    · exact orderlyProg_getFile _ _
    · exact orderlyProg_bind (orderlyProg_removeRecursive _ _)
          (fun _ => orderlyProg_getFile _ _)
    · refine orderlyProg_bind (orderlyProg_getMD5 _ _) ?_
      intro md5Local
      dsimp only
      split
      · exact orderlyProg_bind (orderlyProg_removeRecursive _ _)
          (fun _ => orderlyProg_getFile _ _)
      · exact orderlyProg_pure _
    · exact orderlyProg_bind (orderlyProg_removeRecursive _ _)
          (fun _ => orderlyProg_getFile _ _)
  · rw [printNodeDescSeq]
    exact orderlyProg_pure _
  · intro n rest ihn ihr
    rw [printNodeDescSeq]
    exact orderlyProg_bind ihn (fun _ => ihr)

/-! ## Facts about single calls -/

theorem bind_done_iff {α β : Type} {m : Prog α} {k : α → Prog β} {fs : FileSystem} {b : β} :
    ((m >>= k) fs).status = .done b
      ↔ ∃ a, (m fs).status = .done a ∧ (k a (m fs).fs).status = .done b := by
  rcases hst : (m fs).status with a | ex | _ | _
  · rw [bind_of_done hst]; simp
  · rw [bind_of_threw hst]; simp
  · rw [bind_of_aborted hst]; simp
  · rw [bind_of_timeout hst]; simp

theorem bind_fs_of_done {α β : Type} {m : Prog α} {k : α → Prog β} {fs : FileSystem} {a : α}
    (h : (m fs).status = .done a) : ((m >>= k) fs).fs = (k a (m fs).fs).fs := by
  rw [bind_of_done h]

theorem getFileInfo_done {env : Env} {path : Path} {fs : FileSystem} {info : FileInfo}
    (h : (getFileInfo env path fs).status = .done info) : info = probe fs path := by
  unfold getFileInfo at h
  cases hf : env.fault fs (.getFileInfo path) with
  | some ex => simp [hf, raise] at h
  | none => simpa [hf, succeed, eq_comm] using h

theorem getFileInfo_fs (env : Env) (path : Path) (fs : FileSystem) :
    (getFileInfo env path fs).fs = fs := by
  unfold getFileInfo
  cases env.fault fs (.getFileInfo path) <;> rfl

theorem getFileInfo_events (env : Env) (path : Path) (fs : FileSystem) :
    (getFileInfo env path fs).events
      = [⟨.getFileInfo path, env.fault fs (.getFileInfo path)⟩] := by
  unfold getFileInfo
  cases env.fault fs (.getFileInfo path) <;> rfl

theorem createDirectory_fs_of_done {env : Env} {path : Path} {fs : FileSystem} {u : Unit}
    (h : (createDirectory env path fs).status = .done u) :
    (createDirectory env path fs).fs = mkdir fs path := by
  unfold createDirectory at h ⊢
  cases hf : env.fault fs (.createDirectory path) with
  | some ex => simp [hf, raise] at h
  | none => rfl

theorem createDirectory_events (env : Env) (path : Path) (fs : FileSystem) :
    (createDirectory env path fs).events
      = [⟨.createDirectory path, env.fault fs (.createDirectory path)⟩] := by
  unfold createDirectory
  cases env.fault fs (.createDirectory path) <;> rfl

theorem removeRecursive_fs_of_done {env : Env} {path : Path} {fs : FileSystem} {u : Unit}
    (h : (removeRecursive env path fs).status = .done u) :
    (removeRecursive env path fs).fs = rmtree fs path := by
  cases hf : env.fault fs (.removeRecursive path) with
  | some ex =>
    rw [removeRecursive_of_fault hf] at h
    cases h
  | none => rw [removeRecursive_of_no_fault hf]; rfl

theorem getMD5_fs (env : Env) (path : Path) (fs : FileSystem) :
    (getMD5 env path fs).fs = fs := by
  unfold getMD5
  cases env.fault fs (.getMD5 path) with
  | some ex => rfl
  | none => dsimp only; split <;> rfl

theorem getMD5_events (env : Env) (path : Path) (fs : FileSystem) :
    ∃ x, (getMD5 env path fs).events = [⟨.getMD5 path, x⟩] := by
  unfold getMD5
  cases env.fault fs (.getMD5 path) with
  | some ex => exact ⟨_, rfl⟩
  | none => dsimp only; split <;> exact ⟨_, rfl⟩

theorem getMD5_done {env : Env} {path : Path} {fs : FileSystem} {digest : ByteSeq}
    (h : (getMD5 env path fs).status = .done digest) :
    ∃ content, fs path = some (.regular content) ∧ digest = env.md5 content := by
  unfold getMD5 at h
  cases hf : env.fault fs (.getMD5 path) with
  | some ex => simp [hf, raise] at h
  | none =>
    simp only [hf] at h
    split at h
    · next content hc =>
      refine ⟨content, hc, ?_⟩
      simpa [succeed, eq_comm] using h
    · simp [raise] at h

theorem getBytesBZ2_fs (file : FilePrx) (pos howMuch : Int) (fs : FileSystem) :
    (getBytesBZ2 file pos howMuch fs).fs = fs := by
  unfold getBytesBZ2
  cases file.getBytesBZ2 pos howMuch <;> rfl

theorem getBytesBZ2_events (file : FilePrx) (pos howMuch : Int) (fs : FileSystem) :
    ∃ x, (getBytesBZ2 file pos howMuch fs).events
      = [⟨.getBytesBZ2 file.identity pos howMuch, x⟩] := by
  unfold getBytesBZ2
  cases file.getBytesBZ2 pos howMuch <;> exact ⟨_, rfl⟩

theorem probe_rmtree_self (fs : FileSystem) (path : Path) :
    probe (rmtree fs path) path = .FileInfoNotExist := by
  simp [probe, rmtree]

theorem mkdir_self (fs : FileSystem) (path : Path) : mkdir fs path path = some .directory := by
  simp [mkdir]

/-! ## Justified calls -/

theorem justified_append (env : Env) (remote : List NodeDesc) (xs ys : List Event) :
    ∀ fs, Justified env remote fs (xs ++ ys)
      ↔ Justified env remote fs xs ∧ Justified env remote (replay fs xs) ys := by
  induction xs with
  | nil => intro fs; simp [Justified, replay_nil]
  | cons ev rest ih =>
    intro fs
    have h := ih (ev.apply fs)
    constructor
    · rintro ⟨h1, h2⟩
      exact ⟨⟨h1, (h.1 h2).1⟩, (h.1 h2).2⟩
    · rintro ⟨⟨h1, h2⟩, h3⟩
      exact ⟨h1, h.2 ⟨h2, h3⟩⟩

theorem justified_bind {env : Env} {remote : List NodeDesc} {α β : Type} {m : Prog α}
    {k : α → Prog β} {fs : FileSystem} (ho : Orderly fs (m fs))
    (hm : Justified env remote fs (m fs).events)
    (hk : ∀ a, (m fs).status = .done a → Justified env remote (m fs).fs (k a (m fs).fs).events) :
    Justified env remote fs ((m >>= k) fs).events := by
  rcases hst : (m fs).status with a | ex | _ | _
  · rw [bind_of_done hst]
    refine (justified_append env remote _ _ fs).2 ⟨hm, ?_⟩
    rw [← ho.1]
    exact hk a hst
  · rw [bind_of_threw hst]; exact hm
  · rw [bind_of_aborted hst]; exact hm
  · rw [bind_of_timeout hst]; exact hm

theorem justified_getFileInfo (env : Env) (remote : List NodeDesc) (path : Path)
    (fs : FileSystem) : Justified env remote fs (getFileInfo env path fs).events := by
  rw [getFileInfo_events]; simp [Justified]

theorem justified_getMD5 (env : Env) (remote : List NodeDesc) (path : Path)
    (fs : FileSystem) : Justified env remote fs (getMD5 env path fs).events := by
  obtain ⟨x, hx⟩ := getMD5_events env path fs
  rw [hx]; simp [Justified]

theorem justified_answered (env : Env) (remote : List NodeDesc) (path : Path)
    (fs : FileSystem) :
    Justified env remote fs (answered (.getContents path) fs).events := by
  simp [answered, succeed, Justified]

theorem justified_raise_getContents (env : Env) (remote : List NodeDesc) (path : Path)
    (ex : Exception) (fs : FileSystem) :
    Justified env remote fs ((raise (.getContents path) ex : Prog Unit) fs).events := by
  simp [raise, Justified]

theorem justified_createDirectory {env : Env} {remote : List NodeDesc} {path : Path}
    {fs : FileSystem} (habsent : probe fs path = .FileInfoNotExist)
    (hnode : ∃ n ∈ remote, n.isDirectory = true ∧ n.path = path) :
    Justified env remote fs (createDirectory env path fs).events := by
  rw [createDirectory_events]
  exact ⟨⟨habsent, hnode⟩, trivial⟩

theorem conflict_congr {env : Env} {fs1 fs2 : FileSystem} {n : NodeDesc}
    (h : fs2 n.path = fs1 n.path) (hc : Conflict env fs1 n) : Conflict env fs2 n := by
  cases n with
  | directoryDesc d gc =>
    have h2 : fs2 d = fs1 d := h
    have hp : probe fs2 d = probe fs1 d := by simp only [probe, h2]
    rcases hc with hc | hc
    · exact Or.inl (hp.trans hc)
    · exact Or.inr (hp.trans hc)
  | fileDesc f m =>
    have h2 : fs2 f.identity = fs1 f.identity := h
    have hp : probe fs2 f.identity = probe fs1 f.identity := by simp only [probe, h2]
    have hs : sameChecksum env fs2 f.identity m = sameChecksum env fs1 f.identity m := by
      simp only [sameChecksum, h2]
    rcases hc with hc | hc | ⟨hc1, hc2⟩
    · exact Or.inl (hp.trans hc)
    · exact Or.inr (Or.inl (hp.trans hc))
    · exact Or.inr (Or.inr ⟨hp.trans hc1, hs.trans hc2⟩)

theorem rmtree_above {fs : FileSystem} {p q : Path} (hpq : p <+: q) (hne : p ≠ q) :
    rmtree fs q p = fs p := by
  have hnot : ¬ q <+: p := by
    intro hqp
    exact hne (hpq.eq_of_length (le_antisymm hpq.length_le hqp.length_le))
  simp [rmtree, hnot]

theorem justified_removeSteps {env : Env} {remote : List NodeDesc} {n : NodeDesc}
    (hn : n ∈ remote) (gone : List Path) :
    ∀ fs, Conflict env fs n → (∀ q ∈ gone, n.path <+: q ∧ q ≠ n.path) →
      Justified env remote fs (gone.map (fun q => (⟨.removeStep q, none⟩ : Event)))
        ∧ Conflict env (gone.foldl rmtree fs) n := by
  induction gone with
  | nil => intro fs hc _; exact ⟨trivial, hc⟩
  | cons q rest ih =>
    intro fs hc hall
    obtain ⟨hpre, hne⟩ := hall q (List.mem_cons_self _ _)
    have hc2 : Conflict env (rmtree fs q) n :=
      conflict_congr (rmtree_above hpre (Ne.symm hne)) hc
    obtain ⟨h1, h2⟩ := ih (rmtree fs q) hc2
      (fun x hx => hall x (List.mem_cons_of_mem _ hx))
    exact ⟨⟨⟨n, hn, hpre, Ne.symm hne, hc⟩, h1⟩, h2⟩

theorem mem_removedBeforeFailure {env : Env} {fs : FileSystem} {path q : Path}
    (h : q ∈ removedBeforeFailure env fs path) : path <+: q ∧ q ≠ path := by
  have := (List.mem_filter.1 h).2
  simpa using this

theorem justified_removeRecursive {env : Env} {remote : List NodeDesc} {path : Path}
    {fs : FileSystem} (hnode : ∃ n ∈ remote, n.path = path ∧ Conflict env fs n) :
    Justified env remote fs (removeRecursive env path fs).events := by
  cases hf : env.fault fs (.removeRecursive path) with
  | some ex =>
    rw [removeRecursive_of_fault hf]
    obtain ⟨n, hn, hpath, hc⟩ := hnode
    obtain ⟨h1, h2⟩ := justified_removeSteps hn (removedBeforeFailure env fs path) fs hc
      (fun q hq => hpath ▸ mem_removedBeforeFailure hq)
    refine (justified_append env remote _ _ fs).2 ⟨h1, ?_⟩
    rw [replay_removeSteps]
    exact ⟨⟨n, hn, hpath, h2⟩, trivial⟩
  | none =>
    rw [removeRecursive_of_no_fault hf]
    exact ⟨hnode, trivial⟩

theorem getFileLoop_fs (file : FilePrx) (fuel : Nat) :
    ∀ pos fs, (getFileLoop file fuel pos fs).fs = fs := by
  induction fuel with
  | zero => intro pos fs; rfl
  | succ n ih =>
    intro pos fs
    rw [getFileLoop]
    rcases hst : (getBytesBZ2 file pos (256 * 1024) fs).status with bytes | ex | _ | _
    · rw [bind_of_done hst, getBytesBZ2_fs]
      dsimp only
      split
      · rfl
      · exact ih _ _
    · rw [bind_of_threw hst, getBytesBZ2_fs]
    · rw [bind_of_aborted hst, getBytesBZ2_fs]
    · rw [bind_of_timeout hst, getBytesBZ2_fs]

theorem getFile_fs (fuel : Nat) (file : FilePrx) (fs : FileSystem) :
    (getFile fuel file fs).fs = fs :=
  getFileLoop_fs file fuel 0 fs

theorem justified_getFileLoop {env : Env} {remote : List NodeDesc} {file : FilePrx}
    {fs : FileSystem} (habsent : probe fs file.identity = .FileInfoNotExist)
    (hnode : ∃ n ∈ remote, n.isDirectory = false ∧ n.path = file.identity) (fuel : Nat) :
    ∀ pos, Justified env remote fs (getFileLoop file fuel pos fs).events := by
  induction fuel with
  | zero => intro pos; exact trivial
  | succ n ih =>
    intro pos
    rw [getFileLoop]
    refine justified_bind (orderlyProg_getBytesBZ2 _ _ _ fs) ?_ ?_
    · obtain ⟨x, hx⟩ := getBytesBZ2_events file pos (256 * 1024) fs
      rw [hx]
      exact ⟨⟨habsent, hnode⟩, trivial⟩
    · intro bytes _
      rw [getBytesBZ2_fs]
      split
      · exact trivial
      · exact ih _

theorem justified_getFile {env : Env} {remote : List NodeDesc} {file : FilePrx}
    {fs : FileSystem} (habsent : probe fs file.identity = .FileInfoNotExist)
    (hnode : ∃ n ∈ remote, n.isDirectory = false ∧ n.path = file.identity) (fuel : Nat) :
    Justified env remote fs (getFile fuel file fs).events :=
  justified_getFileLoop habsent hnode fuel 0

/-! ## The walk makes only justified calls -/

theorem mem_nodes_self (n : NodeDesc) : n ∈ n.nodes := by
  cases n with
  | directoryDesc p gc => cases gc <;> simp [NodeDesc.nodes]
  | fileDesc f m => simp [NodeDesc.nodes]

theorem nodesSeq_cons (n : NodeDesc) (rest : List NodeDesc) :
    nodesSeq (n :: rest) = n.nodes ++ nodesSeq rest := by
  rw [nodesSeq]

theorem justified_directory_step {env : Env} {remote : List NodeDesc} {p : Path}
    {gc : Except Exception (List NodeDesc)} (hmem : NodeDesc.directoryDesc p gc ∈ remote)
    (cont : Unit → Prog Unit)
    (hcont : ∀ y fs, Justified env remote fs (cont y fs).events) (fs : FileSystem) :
    Justified env remote fs
      ((getFileInfo env p >>= fun info =>
        match info with
        | .FileInfoNotExist => createDirectory env p >>= cont
        | .FileInfoDirectory => pure () >>= cont
        | .FileInfoRegular => removeRecursive env p >>= fun _ => createDirectory env p >>= cont
        | .FileInfoUnknown => removeRecursive env p >>= fun _ => createDirectory env p >>= cont)
        fs).events := by
  have hnode : ∃ n ∈ remote, n.isDirectory = true ∧ n.path = p := ⟨_, hmem, rfl, rfl⟩
  refine justified_bind (orderlyProg_getFileInfo _ _ fs) (justified_getFileInfo _ _ _ _) ?_
  intro info hdone
  have hinfo := getFileInfo_done hdone
  rw [getFileInfo_fs]
  cases info
  · exact justified_bind (orderlyProg_createDirectory _ _ fs)
      (justified_createDirectory hinfo.symm hnode) (fun _ _ => hcont _ _)
  · exact justified_bind (orderlyProg_pure _ fs) trivial (fun _ _ => hcont _ _)
  · refine justified_bind (orderlyProg_removeRecursive _ _ fs)
      (justified_removeRecursive ⟨_, hmem, rfl, Or.inl hinfo.symm⟩) ?_
    intro _ hd
    rw [removeRecursive_fs_of_done hd]
    exact justified_bind (orderlyProg_createDirectory _ _ _)
      (justified_createDirectory (probe_rmtree_self _ _) hnode) (fun _ _ => hcont _ _)
  · refine justified_bind (orderlyProg_removeRecursive _ _ fs)
      (justified_removeRecursive ⟨_, hmem, rfl, Or.inr hinfo.symm⟩) ?_
    intro _ hd
    rw [removeRecursive_fs_of_done hd]
    exact justified_bind (orderlyProg_createDirectory _ _ _)
      (justified_createDirectory (probe_rmtree_self _ _) hnode) (fun _ _ => hcont _ _)

theorem printNodeDesc_directory (env : Env) (fuel : Nat) (p : Path)
    (gc : Except Exception (List NodeDesc)) :
    printNodeDesc env fuel (.directoryDesc p gc)
      = (getFileInfo env p >>= fun info =>
        match info with
        | .FileInfoNotExist => createDirectory env p >>= fun _ => descend env fuel p gc
        | .FileInfoDirectory => pure () >>= fun _ => descend env fuel p gc
        | .FileInfoRegular => removeRecursive env p >>= fun _ =>
            createDirectory env p >>= fun _ => descend env fuel p gc
        | .FileInfoUnknown => removeRecursive env p >>= fun _ =>
            createDirectory env p >>= fun _ => descend env fuel p gc) := by
  rw [printNodeDesc]

theorem printNodeDesc_file (env : Env) (fuel : Nat) (f : FilePrx) (m : ByteSeq) :
    printNodeDesc env fuel (.fileDesc f m)
      = (getFileInfo env f.identity >>= fun info =>
        match info with
        | .FileInfoNotExist => getFile fuel f
        | .FileInfoDirectory => removeRecursive env f.identity >>= fun _ => getFile fuel f
        | .FileInfoRegular => getMD5 env f.identity >>= fun md5Local =>
            if md5Local ≠ m then removeRecursive env f.identity >>= fun _ => getFile fuel f
            else pure ()
        | .FileInfoUnknown => removeRecursive env f.identity >>= fun _ => getFile fuel f) := by
  rw [printNodeDesc]

theorem printNodeDescSeq_cons (env : Env) (fuel : Nat) (n : NodeDesc) (rest : List NodeDesc) :
    printNodeDescSeq env fuel (n :: rest)
      = (printNodeDesc env fuel n >>= fun _ => printNodeDescSeq env fuel rest) := by
  rw [printNodeDescSeq]

theorem printNodeDescSeq_nil (env : Env) (fuel : Nat) :
    printNodeDescSeq env fuel [] = pure () := by
  rw [printNodeDescSeq]

theorem sameChecksum_of_regular {env : Env} {fs : FileSystem} {path : Path}
    {content : ByteSeq} (h : fs path = some (.regular content)) (md5 : ByteSeq) :
    sameChecksum env fs path md5 = decide (env.md5 content = md5) := by
  simp [sameChecksum, h]

theorem justified_walk (env : Env) (fuel : Nat) :
    (∀ n, ∀ remote, n.nodes ⊆ remote →
        ∀ fs, Justified env remote fs (printNodeDesc env fuel n fs).events)
      ∧ ∀ seq, ∀ remote, nodesSeq seq ⊆ remote →
        ∀ fs, Justified env remote fs (printNodeDescSeq env fuel seq fs).events := by
  apply tree_induction
  · intro p e remote hsub fs
    rw [printNodeDesc_directory]
    exact justified_directory_step (hsub (mem_nodes_self _)) _
      (fun _ fs2 => justified_raise_getContents _ _ _ _ fs2) fs
  · intro p cs ih remote hsub fs
    rw [printNodeDesc_directory]
    refine justified_directory_step (hsub (mem_nodes_self _)) _ ?_ fs
    intro _ fs2
    refine justified_bind (orderlyProg_answered (.getContents p) rfl fs2)
      (justified_answered _ _ _ _) ?_
    intro _ _
    refine ih remote ?_ _
    intro n hn
    apply hsub
    rw [NodeDesc.nodes]
    exact List.mem_cons_of_mem _ hn
  · intro f m remote hsub fs
    rw [printNodeDesc_file]
    have hmem : NodeDesc.fileDesc f m ∈ remote := hsub (mem_nodes_self _)
    have hnode : ∃ n ∈ remote, n.isDirectory = false ∧ n.path = f.identity :=
      ⟨_, hmem, rfl, rfl⟩
    refine justified_bind (orderlyProg_getFileInfo _ _ fs) (justified_getFileInfo _ _ _ _) ?_
    intro info hdone
    have hinfo := getFileInfo_done hdone
    rw [getFileInfo_fs]
    cases info
    · exact justified_getFile hinfo.symm hnode fuel
    · refine justified_bind (orderlyProg_removeRecursive _ _ fs)
        (justified_removeRecursive ⟨_, hmem, rfl, Or.inl hinfo.symm⟩) ?_
      intro _ hd
      rw [removeRecursive_fs_of_done hd]
      exact justified_getFile (probe_rmtree_self _ _) hnode fuel
    · refine justified_bind (orderlyProg_getMD5 _ _ fs) (justified_getMD5 _ _ _ _) ?_
      intro md5Local hd
      obtain ⟨content, hc, hdig⟩ := getMD5_done hd
      rw [getMD5_fs]
      split
      · next hne =>
        refine justified_bind (orderlyProg_removeRecursive _ _ fs)
          (justified_removeRecursive ⟨_, hmem, rfl, Or.inr (Or.inr ⟨hinfo.symm, ?_⟩)⟩) ?_
        · rw [sameChecksum_of_regular hc]
          simpa [hdig] using hne
        · intro _ hd2
          rw [removeRecursive_fs_of_done hd2]
          exact justified_getFile (probe_rmtree_self _ _) hnode fuel
      · exact trivial
    · refine justified_bind (orderlyProg_removeRecursive _ _ fs)
        (justified_removeRecursive ⟨_, hmem, rfl, Or.inr (Or.inl hinfo.symm)⟩) ?_
      intro _ hd
      rw [removeRecursive_fs_of_done hd]
      exact justified_getFile (probe_rmtree_self _ _) hnode fuel
  · intro remote _ fs
    rw [printNodeDescSeq_nil]
    exact trivial
  · intro n rest ihn ihr remote hsub fs
    rw [printNodeDescSeq_cons]
    rw [nodesSeq_cons] at hsub
    refine justified_bind ((orderlyProg_walk env fuel).1 n fs)
      (ihn remote (fun x hx => hsub (List.mem_append_left _ hx)) fs) ?_
    intro _ _
    exact ihr remote (fun x hx => hsub (List.mem_append_right _ hx)) _

/-! ## What justified calls can do to the filesystem -/

theorem apply_of_not_repair {ev : Event} (h : ev.call.isRepair = false) (fs : FileSystem) :
    ev.apply fs = fs := by
  obtain ⟨call, raised⟩ := ev
  cases raised <;> cases call <;> first | rfl | cases h

theorem justified_mem_createDirectory {env : Env} {remote : List NodeDesc}
    {events : List Event} :
    ∀ {fs : FileSystem}, Justified env remote fs events →
      ∀ ev ∈ events, ∀ p, ev.call = .createDirectory p →
        ∃ n ∈ remote, n.isDirectory = true ∧ n.path = p := by
  induction events with
  | nil => intro fs _ ev hev; cases hev
  | cons e rest ih =>
    intro fs hj ev hev p hp
    rcases List.mem_cons.1 hev with rfl | hmem
    · have h := hj.1
      rw [hp] at h
      exact h.2
    · exact ih hj.2 ev hmem p hp

theorem justified_mem_removeRecursive {env : Env} {remote : List NodeDesc}
    {events : List Event} :
    ∀ {fs : FileSystem}, Justified env remote fs events →
      ∀ ev ∈ events, ∀ p, ev.call = .removeRecursive p → ∃ n ∈ remote, n.path = p := by
  induction events with
  | nil => intro fs _ ev hev; cases hev
  | cons e rest ih =>
    intro fs hj ev hev p hp
    rcases List.mem_cons.1 hev with rfl | hmem
    · have h := hj.1
      rw [hp] at h
      obtain ⟨n, hn, hpath, _⟩ := h
      exact ⟨n, hn, hpath⟩
    · exact ih hj.2 ev hmem p hp

theorem justified_mem_removeStep {env : Env} {remote : List NodeDesc}
    {events : List Event} :
    ∀ {fs : FileSystem}, Justified env remote fs events →
      ∀ ev ∈ events, ∀ p, ev.call = .removeStep p → ∃ n ∈ remote, n.path <+: p := by
  induction events with
  | nil => intro fs _ ev hev; cases hev
  | cons e rest ih =>
    intro fs hj ev hev p hp
    rcases List.mem_cons.1 hev with rfl | hmem
    · have h := hj.1
      rw [hp] at h
      obtain ⟨n, hn, hpath, _⟩ := h
      exact ⟨n, hn, hpath⟩
    · exact ih hj.2 ev hmem p hp

theorem replay_unchanged_at {events : List Event} {q : Path} :
    ∀ (fs : FileSystem),
      (∀ ev ∈ events, ev.call ≠ .createDirectory q) →
      (∀ ev ∈ events, ∀ p, ev.call = .removeRecursive p → ev.raised = none → ¬ p <+: q) →
      (∀ ev ∈ events, ∀ p, ev.call = .removeStep p → ¬ p <+: q) →
      replay fs events q = fs q := by
  induction events with
  | nil => intro fs _ _ _; rfl
  | cons e rest ih =>
    intro fs hc hr hs
    rw [replay_cons, ih _ (fun ev hev => hc ev (List.mem_cons_of_mem _ hev))
      (fun ev hev => hr ev (List.mem_cons_of_mem _ hev))
      (fun ev hev => hs ev (List.mem_cons_of_mem _ hev))]
    have hc0 := hc e (List.mem_cons_self _ _)
    have hr0 := hr e (List.mem_cons_self _ _)
    have hs0 := hs e (List.mem_cons_self _ _)
    obtain ⟨call, raised⟩ := e
    cases raised with
    | some ex => cases call <;> rfl
    | none =>
      cases call with
      | createDirectory p =>
        have hne : q ≠ p := by
          intro h; subst h; exact hc0 rfl
        simp [Event.apply, mkdir, hne]
      | removeRecursive p =>
        have hnp : ¬ p <+: q := hr0 p rfl rfl
        simp [Event.apply, rmtree, hnp]
      | removeStep p =>
        have hnp : ¬ p <+: q := hs0 p rfl
        simp [Event.apply, rmtree, hnp]
      | _ => rfl

theorem justified_frame {env : Env} {remote : List NodeDesc} {events : List Event}
    {fs : FileSystem} {q : Path} (hj : Justified env remote fs events)
    (hq : ∀ n ∈ remote, ¬ n.path <+: q) : replay fs events q = fs q := by
  refine replay_unchanged_at fs ?_ ?_ ?_
  · intro ev hev hcall
    obtain ⟨n, hn, _, hpath⟩ := justified_mem_createDirectory hj ev hev q hcall
    exact hq n hn (hpath ▸ List.prefix_refl _)
  · intro ev hev p hcall _ hpre
    obtain ⟨n, hn, hpath⟩ := justified_mem_removeRecursive hj ev hev p hcall
    exact hq n hn (hpath ▸ hpre)
  · intro ev hev p hcall hpre
    obtain ⟨n, hn, hpath⟩ := justified_mem_removeStep hj ev hev p hcall
    exact hq n hn (hpath.trans hpre)

theorem justified_matched_directories {env : Env} {remote : List NodeDesc}
    {events : List Event} {q : Path} :
    ∀ (fs : FileSystem), Justified env remote fs events →
      (∀ n ∈ remote, n.path <+: q → n.isDirectory = true ∧ fs n.path = some .directory) →
      replay fs events q = fs q := by
  induction events with
  | nil => intro fs _ _; rfl
  | cons e rest ih =>
    intro fs hj hq
    obtain ⟨call, raised⟩ := e
    rw [replay_cons]
    have hhead := hj.1
    have htail := hj.2
    cases raised with
    | some ex =>
      have happ : (Event.mk call (some ex)).apply fs = fs := by cases call <;> rfl
      rw [happ] at htail ⊢
      exact ih fs htail hq
    | none =>
      cases call with
      | createDirectory p =>
        obtain ⟨habs, n, hn, hdir, hpath⟩ := hhead
        have hnp : ¬ p <+: q := by
          intro hpre
          have := (hq n hn (hpath ▸ hpre)).2
          rw [hpath] at this
          simp [probe, this] at habs
        have hqp : q ≠ p := by
          intro h; exact hnp (h ▸ List.prefix_refl _)
        have happ : (Event.mk (.createDirectory p) none).apply fs = mkdir fs p := rfl
        rw [happ] at htail ⊢
        rw [ih _ htail]
        · simp [mkdir, hqp]
        · intro n2 hn2 hpre2
          refine ⟨(hq n2 hn2 hpre2).1, ?_⟩
          by_cases h : n2.path = p
          · simp [mkdir, h]
          · simp [mkdir, h, (hq n2 hn2 hpre2).2]
      | removeRecursive p =>
        obtain ⟨n, hn, hpath, hconf⟩ := hhead
        have hnp : ¬ p <+: q := by
          intro hpre
          obtain ⟨hdir, hfs⟩ := hq n hn (hpath ▸ hpre)
          cases n with
          | directoryDesc d gc =>
            have hfs2 : fs d = some .directory := hfs
            rcases hconf with h | h <;> simp [probe, hfs2] at h
          | fileDesc f m => cases hdir
        have happ : (Event.mk (.removeRecursive p) none).apply fs = rmtree fs p := rfl
        rw [happ] at htail ⊢
        rw [ih _ htail]
        · simp [rmtree, hnp]
        · intro n2 hn2 hpre2
          refine ⟨(hq n2 hn2 hpre2).1, ?_⟩
          have : ¬ p <+: n2.path := fun h => hnp (h.trans hpre2)
          simp [rmtree, this, (hq n2 hn2 hpre2).2]
      | removeStep p =>
        obtain ⟨n, hn, hpath, _, hconf⟩ := hhead
        have hnp : ¬ p <+: q := by
          intro hpre
          obtain ⟨hdir, hfs⟩ := hq n hn (hpath.trans hpre)
          cases n with
          | directoryDesc d gc =>
            have hfs2 : fs d = some .directory := hfs
            rcases hconf with h | h <;> simp [probe, hfs2] at h
          | fileDesc f m => cases hdir
        have happ : (Event.mk (.removeStep p) none).apply fs = rmtree fs p := rfl
        rw [happ] at htail ⊢
        rw [ih _ htail]
        · simp [rmtree, hnp]
        · intro n2 hn2 hpre2
          refine ⟨(hq n2 hn2 hpre2).1, ?_⟩
          have : ¬ p <+: n2.path := fun h => hnp (h.trans hpre2)
          simp [rmtree, this, (hq n2 hn2 hpre2).2]
      | _ => exact ih fs htail hq

theorem not_conflict_of_matchesOrMissing {env : Env} {fs : FileSystem} {n : NodeDesc}
    (h : MatchesOrMissing env fs n) : ¬ Conflict env fs n := by
  cases n with
  | directoryDesc d gc =>
    have hfs : fs d = some .directory := h
    intro hc
    rcases hc with hc | hc <;> simp [probe, hfs] at hc
  | fileDesc f m =>
    intro hc
    rcases h with hfs | ⟨content, hfs, hmd5⟩
    · rcases hc with hc | hc | ⟨hc, _⟩ <;> simp [probe, hfs] at hc
    · rcases hc with hc | hc | ⟨_, hc⟩
      · simp [probe, hfs] at hc
      · simp [probe, hfs] at hc
      · simp [sameChecksum, hfs, hmd5] at hc

theorem justified_synced {env : Env} {remote : List NodeDesc} {fs : FileSystem}
    (hsync : ∀ n ∈ remote, MatchesOrMissing env fs n) {events : List Event} :
    Justified env remote fs events →
      (∀ ev ∈ events, ev.call.isRepair = false) ∧ replay fs events = fs := by
  induction events with
  | nil => intro _; exact ⟨fun ev hev => (by cases hev), rfl⟩
  | cons e rest ih =>
    intro hj
    have hhead := hj.1
    have hnr : e.call.isRepair = false := by
      obtain ⟨call, raised⟩ := e
      cases call with
      | createDirectory p =>
        obtain ⟨habs, n, hn, hdir, hpath⟩ := hhead
        cases n with
        | directoryDesc d gc =>
          have hfs : fs d = some .directory := hsync _ hn
          have hdp : d = p := hpath
          rw [← hdp] at habs
          simp [probe, hfs] at habs
        | fileDesc f m => cases hdir
      | removeRecursive p =>
        obtain ⟨n, hn, _, hconf⟩ := hhead
        exact absurd hconf (not_conflict_of_matchesOrMissing (hsync n hn))
      | removeStep p =>
        obtain ⟨n, hn, _, _, hconf⟩ := hhead
        exact absurd hconf (not_conflict_of_matchesOrMissing (hsync n hn))
      | _ => rfl
    have htail := hj.2
    rw [apply_of_not_repair hnr] at htail
    obtain ⟨h1, h2⟩ := ih htail
    refine ⟨?_, ?_⟩
    · intro ev hev
      rcases List.mem_cons.1 hev with rfl | hmem
      · exact hnr
      · exact h1 ev hmem
    · rw [replay_cons, apply_of_not_repair hnr, h2]

theorem matchesOrMissing_of_matches {env : Env} {fs : FileSystem} {n : NodeDesc}
    (h : Matches env fs n) : MatchesOrMissing env fs n := by
  cases n with
  | directoryDesc d gc => exact h
  | fileDesc f m => exact Or.inr h

theorem justified_inSync_no_chunk {env : Env} {remote : List NodeDesc} {fs : FileSystem}
    (hsync : ∀ n ∈ remote, Matches env fs n) {events : List Event} :
    Justified env remote fs events → ∀ ev ∈ events, ev.call.isChunkRequest = false := by
  induction events with
  | nil => intro _ ev hev; cases hev
  | cons e rest ih =>
    intro hj ev hev
    have hnr : e.call.isRepair = false :=
      (justified_synced (fun n hn => matchesOrMissing_of_matches (hsync n hn)) hj).1 e
        (List.mem_cons_self _ _)
    have htail := hj.2
    rw [apply_of_not_repair hnr] at htail
    rcases List.mem_cons.1 hev with rfl | hmem
    · have hhead := hj.1
      obtain ⟨call, raised⟩ := ev
      cases call with
      | getBytesBZ2 p pos howMuch =>
        obtain ⟨habs, n, hn, hdir, hpath⟩ := hhead
        cases n with
        | directoryDesc d gc => cases hdir
        | fileDesc f m =>
          obtain ⟨content, hfs, _⟩ := hsync _ hn
          have hfp : f.identity = p := hpath
          rw [← hfp] at habs
          simp [probe, hfs] at habs
      | _ => rfl
    · exact ih htail ev hmem

/-! ## Sequencing -/

theorem bind_assoc_run {α β γ : Type} (m : Prog α) (f : α → Prog β) (g : β → Prog γ)
    (fs : FileSystem) : ((m >>= f) >>= g) fs = (m >>= fun a => f a >>= g) fs := by
  rcases hst : (m fs).status with a | ex | _ | _
  · rw [bind_of_done (m := m) hst]
    rcases hst2 : (f a (m fs).fs).status with b | ex | _ | _
    · have h1 : ((m >>= f) fs).status = .done b := by rw [bind_of_done hst]; exact hst2
      rw [bind_of_done h1, bind_of_done hst, bind_of_done hst2]
      simp
    · have h1 : ((m >>= f) fs).status = .threw ex := by rw [bind_of_done hst]; exact hst2
      rw [bind_of_threw h1, bind_of_done hst, bind_of_threw hst2]
    · have h1 : ((m >>= f) fs).status = .aborted := by rw [bind_of_done hst]; exact hst2
      rw [bind_of_aborted h1, bind_of_done hst, bind_of_aborted hst2]
    · have h1 : ((m >>= f) fs).status = .timeout := by rw [bind_of_done hst]; exact hst2
      rw [bind_of_timeout h1, bind_of_done hst, bind_of_timeout hst2]
  · have h1 : ((m >>= f) fs).status = .threw ex := by rw [bind_of_threw hst]
    rw [bind_of_threw h1, bind_of_threw hst, bind_of_threw hst]
  · have h1 : ((m >>= f) fs).status = .aborted := by rw [bind_of_aborted hst]
    rw [bind_of_aborted h1, bind_of_aborted hst, bind_of_aborted hst]
  · have h1 : ((m >>= f) fs).status = .timeout := by rw [bind_of_timeout hst]
    rw [bind_of_timeout h1, bind_of_timeout hst, bind_of_timeout hst]

theorem pure_bind_run {α β : Type} (a : α) (k : α → Prog β) (fs : FileSystem) :
    ((pure a : Prog α) >>= k) fs = k a fs := by
  rw [bind_of_done (a := a) rfl]
  simp [pure_run]

theorem printNodeDescSeq_append (env : Env) (fuel : Nat) (pre seq : List NodeDesc)
    (fs : FileSystem) :
    printNodeDescSeq env fuel (pre ++ seq) fs
      = (printNodeDescSeq env fuel pre >>= fun _ => printNodeDescSeq env fuel seq) fs := by
  induction pre generalizing fs with
  | nil => rw [List.nil_append, printNodeDescSeq_nil, pure_bind_run]
  | cons n rest ih =>
    rw [List.cons_append, printNodeDescSeq_cons, printNodeDescSeq_cons, bind_assoc_run]
    rcases hst : (printNodeDesc env fuel n fs).status with a | ex | _ | _
    · rw [bind_of_done hst, bind_of_done hst, ih]
    · rw [bind_of_threw hst, bind_of_threw hst]
    · rw [bind_of_aborted hst, bind_of_aborted hst]
    · rw [bind_of_timeout hst, bind_of_timeout hst]

theorem directory_step_run (env : Env) (fuel : Nat) (p : Path)
    (gc : Except Exception (List NodeDesc)) (rest : List NodeDesc) (fs : FileSystem)
    (hprobe : ∀ fs2, env.fault fs2 (.getFileInfo p) = none)
    (hcreate : ∀ fs2, env.fault fs2 (.createDirectory p) = none)
    (hremove : ∀ fs2, env.fault fs2 (.removeRecursive p) = none) :
    let acts := Event.ok (.getFileInfo p) :: (directoryRepair (probe fs p) p).map Event.ok
    let r1 := (descend env fuel p gc >>= fun _ => printNodeDescSeq env fuel rest)
      (replay fs acts)
    (printNodeDesc env fuel (.directoryDesc p gc) >>= fun _ => printNodeDescSeq env fuel rest) fs
      = ⟨r1.status, r1.fs, acts ++ r1.events⟩ := by
  intro acts r1
  rw [printNodeDesc_directory, bind_assoc_run]
  have hinfo : (getFileInfo env p fs) = succeed (.getFileInfo p) (probe fs p) fs := by
    simp [getFileInfo, hprobe]
  have hcd : ∀ fs2, createDirectory env p fs2 = succeed (.createDirectory p) () (mkdir fs2 p) := by
    intro fs2; simp [createDirectory, hcreate]
  have hrm : ∀ fs2, removeRecursive env p fs2
      = succeed (.removeRecursive p) () (rmtree fs2 p) := by
    intro fs2; simp [removeRecursive, hremove]
  rw [bind_of_done (a := probe fs p) (by rw [hinfo]; rfl)]
  simp only [hinfo, succeed]
  cases hp : probe fs p
  · dsimp only
    rw [bind_assoc_run, bind_of_done (a := ()) (by rw [hcd]; rfl)]
    simp only [hcd, succeed, acts, r1, hp, directoryRepair, List.map, replay, List.foldl,
      Event.apply, Event.ok, List.cons_append, List.nil_append]
  · dsimp only
    rw [bind_assoc_run, pure_bind_run]
    simp only [acts, r1, hp, directoryRepair, List.map, replay, List.foldl,
      Event.apply, Event.ok, List.cons_append, List.nil_append]
  · dsimp only
    rw [bind_assoc_run, bind_of_done (a := ()) (by rw [hrm]; rfl)]
    simp only [hrm, succeed]
    rw [bind_assoc_run, bind_of_done (a := ()) (by rw [hcd]; rfl)]
    simp only [hcd, succeed, acts, r1, hp, directoryRepair, List.map, replay, List.foldl,
      Event.apply, Event.ok, List.cons_append, List.nil_append]
  · dsimp only
    rw [bind_assoc_run, bind_of_done (a := ()) (by rw [hrm]; rfl)]
    simp only [hrm, succeed]
    rw [bind_assoc_run, bind_of_done (a := ()) (by rw [hcd]; rfl)]
    simp only [hcd, succeed, acts, r1, hp, directoryRepair, List.map, replay, List.foldl,
      Event.apply, Event.ok, List.cons_append, List.nil_append]

theorem file_step_run (env : Env) (fuel : Nat) (f : FilePrx) (m : ByteSeq)
    (rest : List NodeDesc) (fs : FileSystem)
    (hprobe : ∀ fs2, env.fault fs2 (.getFileInfo f.identity) = none)
    (hmd5 : ∀ fs2, env.fault fs2 (.getMD5 f.identity) = none)
    (hremove : ∀ fs2, env.fault fs2 (.removeRecursive f.identity) = none) :
    let p := f.identity
    let acts := Event.ok (.getFileInfo p) :: (fileRepair env fs (probe fs p) p m).map Event.ok
    let r1 := ((if fileFetches env fs (probe fs p) p m then getFile fuel f else pure ())
      >>= fun _ => printNodeDescSeq env fuel rest) (replay fs acts)
    (printNodeDesc env fuel (.fileDesc f m) >>= fun _ => printNodeDescSeq env fuel rest) fs
      = ⟨r1.status, r1.fs, acts ++ r1.events⟩ := by
  intro p acts r1
  rw [printNodeDesc_file, bind_assoc_run]
  have hinfo : (getFileInfo env p fs) = succeed (.getFileInfo p) (probe fs p) fs := by
    simp [getFileInfo, hprobe, p]
  have hrm : ∀ fs2, removeRecursive env p fs2
      = succeed (.removeRecursive p) () (rmtree fs2 p) := by
    intro fs2; simp [removeRecursive, hremove, p]
  rw [bind_of_done (a := probe fs p) (by rw [hinfo]; rfl)]
  simp only [hinfo, succeed]
  cases hp : probe fs p
  · dsimp only
    simp only [acts, r1, hp, fileRepair, fileFetches, List.map, replay, List.foldl,
      Event.apply, Event.ok, List.cons_append, List.nil_append, if_true]
  · dsimp only
    rw [bind_assoc_run, bind_of_done (a := ()) (by rw [hrm]; rfl)]
    simp only [hrm, succeed, acts, r1, hp, fileRepair, fileFetches, List.map, replay,
      List.foldl, Event.apply, Event.ok, List.cons_append, List.nil_append, if_true]
  · dsimp only
    have hreg : ∃ content, fs p = some (.regular content) := by
      cases hfs : fs p with
      | none => simp [probe, hfs] at hp
      | some e =>
        cases e with
        | regular content => exact ⟨content, rfl⟩
        | directory => simp [probe, hfs] at hp
        | unknown => simp [probe, hfs] at hp
    obtain ⟨content, hc⟩ := hreg
    have hget : getMD5 env p fs = succeed (.getMD5 p) (env.md5 content) fs := by
      simp [getMD5, hmd5, hc, p]
    rw [bind_assoc_run, bind_of_done (a := env.md5 content) (by rw [hget]; rfl)]
    simp only [hget, succeed]
    by_cases heq : env.md5 content = m
    · have hs : sameChecksum env fs p m = true := by simp [sameChecksum, hc, heq]
      simp only [heq, ne_eq, not_true_eq_false, if_false]
      rw [pure_bind_run]
      simp [acts, r1, hp, fileRepair, fileFetches, hs, replay, Event.apply, Event.ok,
        pure_bind_run]
    · have hs : sameChecksum env fs p m = false := by simp [sameChecksum, hc, heq]
      simp only [ne_eq, heq, not_false_eq_true, if_true]
      rw [bind_assoc_run, bind_of_done (a := ()) (by rw [hrm]; rfl)]
      simp [hrm, succeed, acts, r1, hp, fileRepair, fileFetches, hs, replay, Event.apply,
        Event.ok]
  · dsimp only
    rw [bind_assoc_run, bind_of_done (a := ()) (by rw [hrm]; rfl)]
    simp only [hrm, succeed, acts, r1, hp, fileRepair, fileFetches, List.map, replay,
      List.foldl, Event.apply, Event.ok, List.cons_append, List.nil_append, if_true]

/-! ## The chunk loop -/

theorem toInt32_of_range {x : Int} (h0 : 0 ≤ x) (h1 : x < 2 ^ 31) : toInt32 x = x := by
  unfold toInt32
  have h : (x + 2 ^ 31) % 2 ^ 32 = x + 2 ^ 31 := by
    apply Int.emod_eq_of_lt <;> omega
  omega

theorem getBytesBZ2_of_ok {file : FilePrx} {pos howMuch : Int} {bytes : ByteSeq}
    (h : file.getBytesBZ2 pos howMuch = .ok bytes) (fs : FileSystem) :
    getBytesBZ2 file pos howMuch fs
      = succeed (.getBytesBZ2 file.identity pos howMuch) bytes fs := by
  simp [getBytesBZ2, h]

theorem getFileLoop_events_chunk (file : FilePrx) (fuel : Nat) :
    ∀ pos fs, ∀ ev ∈ (getFileLoop file fuel pos fs).events,
      ∃ at_, ev.call = .getBytesBZ2 file.identity at_ (256 * 1024) := by
  induction fuel with
  | zero => intro pos fs ev hev; cases hev
  | succ n ih =>
    intro pos fs ev hev
    rw [getFileLoop] at hev
    obtain ⟨x, hx⟩ := getBytesBZ2_events file pos (256 * 1024) fs
    rcases hst : (getBytesBZ2 file pos (256 * 1024) fs).status with bytes | ex | _ | _
    · rw [bind_of_done hst, hx, getBytesBZ2_fs] at hev
      dsimp only at hev
      rcases List.mem_append.1 hev with h | h
      · rw [List.mem_singleton] at h
        exact ⟨pos, by rw [h]⟩
      · split at h
        · cases h
        · exact ih _ _ ev h
    · rw [bind_of_threw hst, hx] at hev
      rw [List.mem_singleton] at hev
      exact ⟨pos, by rw [hev]⟩
    · rw [bind_of_aborted hst, hx] at hev
      rw [List.mem_singleton] at hev
      exact ⟨pos, by rw [hev]⟩
    · rw [bind_of_timeout hst, hx] at hev
      rw [List.mem_singleton] at hev
      exact ⟨pos, by rw [hev]⟩

theorem getFileLoop_answers (file : FilePrx) (chunks : List ByteSeq) :
    ∀ (pos : Int) (fuel : Nat) (fs : FileSystem), Answers file pos chunks → 0 ≤ pos →
      pos + totalSize chunks < 2 ^ 31 → chunks.length < fuel →
      getFileLoop file fuel pos fs
        = ⟨.done (), fs, (requestOffsets pos chunks).map
            (fun o => Event.ok (.getBytesBZ2 file.identity o (256 * 1024)))⟩ := by
  induction chunks with
  | nil =>
    intro pos fuel fs hans _ _ hfuel
    obtain ⟨n, rfl⟩ : ∃ n, fuel = n + 1 := ⟨fuel - 1, by simp at hfuel; omega⟩
    have hans : file.getBytesBZ2 pos (256 * 1024) = .ok [] := hans
    rw [getFileLoop, bind_of_done (a := []) (by rw [getBytesBZ2_of_ok hans]; rfl)]
    rw [getBytesBZ2_of_ok hans]
    simp [succeed, requestOffsets, Event.ok, pure_run]
  | cons c rest ih =>
    intro pos fuel fs hans hpos hsize hfuel
    obtain ⟨n, rfl⟩ : ∃ n, fuel = n + 1 := ⟨fuel - 1, by simp at hfuel; omega⟩
    obtain ⟨hne, hc, hrest⟩ := hans
    have hsz : totalSize (c :: rest) = c.length + totalSize rest := by
      simp [totalSize]
    rw [hsz] at hsize
    push_cast at hsize
    have hwrap : toInt32 (pos + c.length) = pos + c.length :=
      toInt32_of_range (by omega) (by omega)
    rw [getFileLoop, bind_of_done (a := c) (by rw [getBytesBZ2_of_ok hc]; rfl)]
    have hemp : c.isEmpty = false := by
      cases c with
      | nil => exact absurd rfl hne
      | cons _ _ => rfl
    simp only [getBytesBZ2_of_ok hc, succeed, hemp, hwrap, Bool.false_eq_true, if_false]
    rw [ih (pos + c.length) n fs hrest (by omega) (by omega)
      (by simp at hfuel; omega)]
    simp [requestOffsets, Event.ok]

theorem getFileLoop_answersInt32 (file : FilePrx) (chunks : List ByteSeq) :
    ∀ (pos : Int) (fuel : Nat) (fs : FileSystem), AnswersInt32 file pos chunks →
      chunks.length < fuel →
      (getFileLoop file fuel pos fs).status = .done ()
        ∧ (getFileLoop file fuel pos fs).events.length = chunks.length + 1 := by
  induction chunks with
  | nil =>
    intro pos fuel fs hans hfuel
    obtain ⟨n, rfl⟩ : ∃ n, fuel = n + 1 := ⟨fuel - 1, by simp at hfuel; omega⟩
    have hans : file.getBytesBZ2 pos (256 * 1024) = .ok [] := hans
    rw [getFileLoop, bind_of_done (a := []) (by rw [getBytesBZ2_of_ok hans]; rfl)]
    rw [getBytesBZ2_of_ok hans]
    simp [succeed, pure_run]
  | cons c rest ih =>
    intro pos fuel fs hans hfuel
    obtain ⟨n, rfl⟩ : ∃ n, fuel = n + 1 := ⟨fuel - 1, by simp at hfuel; omega⟩
    obtain ⟨hne, hc, hrest⟩ := hans
    rw [getFileLoop, bind_of_done (a := c) (by rw [getBytesBZ2_of_ok hc]; rfl)]
    have hemp : c.isEmpty = false := by
      cases c with
      | nil => exact absurd rfl hne
      | cons _ _ => rfl
    simp only [getBytesBZ2_of_ok hc, succeed, hemp, Bool.false_eq_true, if_false]
    obtain ⟨h1, h2⟩ := ih (toInt32 (pos + c.length)) n fs hrest (by simp at hfuel; omega)
    refine ⟨h1, ?_⟩
    simp [h2]

/-! ## Well-formed remote trees -/

theorem wellFormedSeq_cons {base : Path} {n : NodeDesc} {rest : List NodeDesc} :
    wellFormedSeq base (n :: rest) = true
      ↔ (n.path ≠ [] ∧ n.path.dropLast = base) ∧ (∀ o ∈ rest, o.path ≠ n.path)
        ∧ n.wellFormed = true ∧ wellFormedSeq base rest = true := by
  rw [wellFormedSeq]
  simp [Bool.and_eq_true, List.all_eq_true, and_assoc]

theorem wellFormedSeq_parent {base : Path} {seq : List NodeDesc}
    (h : wellFormedSeq base seq = true) :
    ∀ n ∈ seq, n.path ≠ [] ∧ n.path.dropLast = base := by
  induction seq with
  | nil => intro n hn; cases hn
  | cons k rest ih =>
    obtain ⟨hk, _, _, hrest⟩ := wellFormedSeq_cons.1 h
    intro n hn
    rcases List.mem_cons.1 hn with rfl | hmem
    · exact hk
    · exact ih hrest n hmem

theorem wellFormedSeq_length {base : Path} {seq : List NodeDesc}
    (h : wellFormedSeq base seq = true) : ∀ n ∈ seq, n.path.length = base.length + 1 := by
  intro n hn
  obtain ⟨hne, hdl⟩ := wellFormedSeq_parent h n hn
  have := List.length_dropLast n.path
  rw [hdl] at this
  have hpos : 0 < n.path.length := List.length_pos.2 hne
  omega

theorem wellFormed_paths :
    (∀ n : NodeDesc, n.wellFormed = true → ∀ m ∈ n.nodes, n.path <+: m.path)
      ∧ ∀ seq : List NodeDesc, ∀ base, wellFormedSeq base seq = true →
        ∀ m ∈ nodesSeq seq, ∃ k ∈ seq, k.path <+: m.path := by
  apply tree_induction
  · intro p e _ m hm
    rw [NodeDesc.nodes, List.mem_singleton] at hm
    rw [hm]
  · intro p cs ih hwf m hm
    rw [NodeDesc.nodes] at hm
    rcases List.mem_cons.1 hm with rfl | hmem
    · exact List.prefix_refl _
    · rw [NodeDesc.wellFormed] at hwf
      obtain ⟨k, hk, hpre⟩ := ih p hwf m hmem
      obtain ⟨hne, hdl⟩ := wellFormedSeq_parent hwf k hk
      have hp : p <+: k.path := hdl ▸ List.dropLast_prefix _
      exact hp.trans hpre
  · intro f md5 _ m hm
    rw [NodeDesc.nodes, List.mem_singleton] at hm
    rw [hm]
  · intro base _ m hm
    rw [nodesSeq] at hm
    cases hm
  · intro n rest ihn ihr base hwf m hm
    obtain ⟨_, _, hn, hrest⟩ := wellFormedSeq_cons.1 hwf
    rw [nodesSeq_cons] at hm
    rcases List.mem_append.1 hm with h | h
    · exact ⟨n, List.mem_cons_self _ _, ihn hn m h⟩
    · obtain ⟨k, hk, hpre⟩ := ihr base hrest m h
      exact ⟨k, List.mem_cons_of_mem _ hk, hpre⟩

/-! ## Where the walk leaves the filesystem -/

theorem walk_fs_replay (env : Env) (fuel : Nat) (seq : List NodeDesc) (fs : FileSystem) :
    (printNodeDescSeq env fuel seq fs).fs
      = replay fs (printNodeDescSeq env fuel seq fs).events :=
  ((orderlyProg_walk env fuel).2 seq fs).1

theorem walk_frame (env : Env) (fuel : Nat) (seq : List NodeDesc) (fs : FileSystem)
    {q : Path} (hq : ∀ n ∈ nodesSeq seq, ¬ n.path <+: q) :
    (printNodeDescSeq env fuel seq fs).fs q = fs q := by
  rw [walk_fs_replay]
  exact justified_frame ((justified_walk env fuel).2 seq _ (fun _ h => h) fs) hq

theorem probe_notExist {fs : FileSystem} {p : Path} (h : probe fs p = .FileInfoNotExist) :
    fs p = none := by
  cases hfs : fs p with
  | none => rfl
  | some e => cases e <;> simp [probe, hfs] at h

theorem probe_directory {fs : FileSystem} {p : Path} (h : probe fs p = .FileInfoDirectory) :
    fs p = some .directory := by
  cases hfs : fs p with
  | none => simp [probe, hfs] at h
  | some e => cases e <;> simp [probe, hfs] at h ⊢

theorem matchesOrMissing_congr {env : Env} {fs1 fs2 : FileSystem} {n : NodeDesc}
    (h : fs2 n.path = fs1 n.path) (hm : MatchesOrMissing env fs1 n) :
    MatchesOrMissing env fs2 n := by
  cases n with
  | directoryDesc d gc =>
    have h2 : fs2 d = fs1 d := h
    have hm2 : fs1 d = some .directory := hm
    exact (h2.trans hm2 : fs2 d = some .directory)
  | fileDesc f m =>
    have h2 : fs2 f.identity = fs1 f.identity := h
    rcases hm with hm | ⟨content, hc, hmd5⟩
    · exact Or.inl (h2.trans hm)
    · exact Or.inr ⟨content, h2.trans hc, hmd5⟩

theorem directory_done {env : Env} {fuel : Nat} {p : Path}
    {gc : Except Exception (List NodeDesc)} {fs : FileSystem}
    (h : (printNodeDesc env fuel (.directoryDesc p gc) fs).status = .done ()) :
    ∃ cs fs1, gc = .ok cs ∧ fs1 p = some .directory
      ∧ (printNodeDescSeq env fuel cs fs1).status = .done ()
      ∧ (printNodeDesc env fuel (.directoryDesc p gc) fs).fs
          = (printNodeDescSeq env fuel cs fs1).fs := by
  rw [printNodeDesc_directory] at h ⊢
  obtain ⟨info, hinfo, hrest⟩ := bind_done_iff.1 h
  rw [bind_fs_of_done hinfo]
  have hprobe := getFileInfo_done hinfo
  rw [getFileInfo_fs] at hrest ⊢
  have hcont : ∀ fs1, fs1 p = some .directory →
      (descend env fuel p gc fs1).status = .done () →
      ∃ cs fs2, gc = .ok cs ∧ fs2 p = some .directory
        ∧ (printNodeDescSeq env fuel cs fs2).status = .done ()
        ∧ (descend env fuel p gc fs1).fs = (printNodeDescSeq env fuel cs fs2).fs := by
    intro fs1 hdir hst
    cases gc with
    | error ex => simp [descend, raise] at hst
    | ok cs =>
      have ha : (answered (.getContents p) fs1).status = .done () := rfl
      have hd : descend env fuel p (.ok cs)
          = (answered (.getContents p) >>= fun _ => printNodeDescSeq env fuel cs) := rfl
      rw [hd] at hst ⊢
      obtain ⟨_, _, hw⟩ := bind_done_iff.1 hst
      rw [bind_fs_of_done ha]
      exact ⟨cs, fs1, rfl, hdir, hw, rfl⟩
  cases info
  · dsimp only at hrest ⊢
    obtain ⟨u, hcd, hk⟩ := bind_done_iff.1 hrest
    rw [bind_fs_of_done hcd]
    rw [createDirectory_fs_of_done hcd] at hk ⊢
    exact hcont _ (mkdir_self _ _) hk
  · dsimp only at hrest ⊢
    rw [pure_bind_run] at hrest ⊢
    exact hcont _ (probe_directory hprobe.symm) hrest
  · dsimp only at hrest ⊢
    obtain ⟨u, hrm, hk⟩ := bind_done_iff.1 hrest
    rw [bind_fs_of_done hrm]
    rw [removeRecursive_fs_of_done hrm] at hk ⊢
    obtain ⟨u2, hcd, hk2⟩ := bind_done_iff.1 hk
    rw [bind_fs_of_done hcd]
    rw [createDirectory_fs_of_done hcd] at hk2 ⊢
    exact hcont _ (mkdir_self _ _) hk2
  · dsimp only at hrest ⊢
    obtain ⟨u, hrm, hk⟩ := bind_done_iff.1 hrest
    rw [bind_fs_of_done hrm]
    rw [removeRecursive_fs_of_done hrm] at hk ⊢
    obtain ⟨u2, hcd, hk2⟩ := bind_done_iff.1 hk
    rw [bind_fs_of_done hcd]
    rw [createDirectory_fs_of_done hcd] at hk2 ⊢
    exact hcont _ (mkdir_self _ _) hk2

theorem rmtree_self (fs : FileSystem) (p : Path) : rmtree fs p p = none := by
  simp [rmtree]

theorem file_done {env : Env} {fuel : Nat} {f : FilePrx} {m : ByteSeq} {fs : FileSystem}
    (h : (printNodeDesc env fuel (.fileDesc f m) fs).status = .done ()) :
    MatchesOrMissing env (printNodeDesc env fuel (.fileDesc f m) fs).fs (.fileDesc f m) := by
  rw [printNodeDesc_file] at h ⊢
  obtain ⟨info, hinfo, hrest⟩ := bind_done_iff.1 h
  rw [bind_fs_of_done hinfo]
  have hprobe := getFileInfo_done hinfo
  rw [getFileInfo_fs] at hrest ⊢
  cases info
  · dsimp only at hrest ⊢
    rw [getFile_fs]
    exact Or.inl (probe_notExist hprobe.symm)
  · dsimp only at hrest ⊢
    obtain ⟨u, hrm, _⟩ := bind_done_iff.1 hrest
    rw [bind_fs_of_done hrm, getFile_fs, removeRecursive_fs_of_done hrm]
    exact Or.inl (rmtree_self _ _)
  · dsimp only at hrest ⊢
    obtain ⟨digest, hmd, hk⟩ := bind_done_iff.1 hrest
    obtain ⟨content, hc, hdig⟩ := getMD5_done hmd
    rw [bind_fs_of_done hmd]
    rw [getMD5_fs] at hk ⊢
    by_cases heq : digest = m
    · simp only [heq, ne_eq, not_true_eq_false, if_false, pure_run]
      exact Or.inr ⟨content, hc, by rw [← hdig, heq]⟩
    · simp only [ne_eq, heq, not_false_eq_true, if_true] at hk ⊢
      obtain ⟨u, hrm, _⟩ := bind_done_iff.1 hk
      rw [bind_fs_of_done hrm, getFile_fs, removeRecursive_fs_of_done hrm]
      exact Or.inl (rmtree_self _ _)
  · dsimp only at hrest ⊢
    obtain ⟨u, hrm, _⟩ := bind_done_iff.1 hrest
    rw [bind_fs_of_done hrm, getFile_fs, removeRecursive_fs_of_done hrm]
    exact Or.inl (rmtree_self _ _)

theorem not_prefix_of_siblings {a b x y : Path} (hlen : a.length = b.length) (hne : a ≠ b)
    (ha : a <+: x) (hb : b <+: y) : ¬ x <+: y := by
  intro hxy
  have h1 : a <+: y := ha.trans hxy
  have h2 : a <+: b := List.prefix_of_prefix_length_le h1 hb (le_of_eq hlen)
  exact hne (h2.eq_of_length hlen)

theorem walk_converges (env : Env) (fuel : Nat) :
    (∀ n : NodeDesc, ∀ fs, n.wellFormed = true →
        (printNodeDesc env fuel n fs).status = .done () →
        ∀ m ∈ n.nodes, MatchesOrMissing env (printNodeDesc env fuel n fs).fs m)
      ∧ ∀ seq : List NodeDesc, ∀ base fs, wellFormedSeq base seq = true →
        (printNodeDescSeq env fuel seq fs).status = .done () →
        ∀ m ∈ nodesSeq seq, MatchesOrMissing env (printNodeDescSeq env fuel seq fs).fs m := by
  apply tree_induction
  · intro p e fs _ hdone
    obtain ⟨cs, _, hgc, _⟩ := directory_done hdone
    cases hgc
  · intro p cs ih fs hwf hdone m hm
    obtain ⟨cs2, fs1, hgc, hdir, hw, hfs⟩ := directory_done hdone
    cases hgc
    rw [NodeDesc.wellFormed] at hwf
    rw [hfs]
    rw [NodeDesc.nodes] at hm
    rcases List.mem_cons.1 hm with rfl | hmem
    · show (printNodeDescSeq env fuel cs fs1).fs p = some .directory
      rw [walk_frame env fuel cs fs1, hdir]
      intro n hn hpre
      obtain ⟨k, hk, hkn⟩ := wellFormed_paths.2 cs p hwf n hn
      have hlen := wellFormedSeq_length hwf k hk
      have h1 := (hkn.trans hpre).length_le
      omega
    · exact ih p fs1 hwf hw m hmem
  · intro f md5 fs _ hdone m hm
    rw [NodeDesc.nodes, List.mem_singleton] at hm
    rw [hm]
    exact file_done hdone
  · intro base fs _ _ m hm
    rw [nodesSeq] at hm
    cases hm
  · intro n rest ihn ihr base fs hwf hdone m hm
    obtain ⟨_, hdist, hn, hrest⟩ := wellFormedSeq_cons.1 hwf
    rw [printNodeDescSeq_cons] at hdone ⊢
    obtain ⟨u, hnd, hrd⟩ := bind_done_iff.1 hdone
    rw [bind_fs_of_done hnd]
    rw [nodesSeq_cons] at hm
    rcases List.mem_append.1 hm with h | h
    · refine matchesOrMissing_congr ?_ (ihn fs hn hnd m h)
      apply walk_frame
      intro m2 hm2
      obtain ⟨k, hk, hkm⟩ := wellFormed_paths.2 rest base hrest m2 hm2
      have hnm := wellFormed_paths.1 n hn m h
      have hlk := wellFormedSeq_length hwf k (List.mem_cons_of_mem _ hk)
      have hln := wellFormedSeq_length hwf n (List.mem_cons_self _ _)
      exact not_prefix_of_siblings (hlk.trans hln.symm) (hdist k hk) hkm hnm
    · exact ihr base _ hrest hrd m h

/-! ## The walk over a tree that is already in sync -/

theorem accessibleSeq_cons {n : NodeDesc} {rest : List NodeDesc} :
    accessibleSeq (n :: rest) = true ↔ n.accessible = true ∧ accessibleSeq rest = true := by
  rw [accessibleSeq, Bool.and_eq_true]

theorem walk_inSync_done (env : Env) (fuel : Nat)
    (hprobe : ∀ fs p, env.fault fs (.getFileInfo p) = none)
    (hmd5 : ∀ fs p, env.fault fs (.getMD5 p) = none) :
    (∀ n : NodeDesc, ∀ fs, (∀ m ∈ n.nodes, Matches env fs m) → n.accessible = true →
        (printNodeDesc env fuel n fs).status = .done ()
          ∧ (printNodeDesc env fuel n fs).fs = fs)
      ∧ ∀ seq : List NodeDesc, ∀ fs, (∀ m ∈ nodesSeq seq, Matches env fs m) →
        accessibleSeq seq = true →
        (printNodeDescSeq env fuel seq fs).status = .done ()
          ∧ (printNodeDescSeq env fuel seq fs).fs = fs := by
  have hinfo : ∀ fs p, getFileInfo env p fs = succeed (.getFileInfo p) (probe fs p) fs := by
    intro fs p; simp [getFileInfo, hprobe]
  apply tree_induction
  · intro p e fs _ hacc
    simp [NodeDesc.accessible] at hacc
  · intro p cs ih fs hsync hacc
    rw [NodeDesc.accessible] at hacc
    have hdir : fs p = some .directory := hsync _ (mem_nodes_self _)
    have hp : probe fs p = .FileInfoDirectory := by simp [probe, hdir]
    have hcs : ∀ m ∈ nodesSeq cs, Matches env fs m := by
      intro m hm
      apply hsync
      rw [NodeDesc.nodes]
      exact List.mem_cons_of_mem _ hm
    obtain ⟨h1, h2⟩ := ih fs hcs hacc
    have hst : (getFileInfo env p fs).status = .done .FileInfoDirectory := by
      rw [hinfo, ← hp]; rfl
    have hd : descend env fuel p (.ok cs)
        = (answered (.getContents p) >>= fun _ => printNodeDescSeq env fuel cs) := rfl
    have ha : ∀ fs1, (answered (.getContents p) fs1).status = .done () := fun _ => rfl
    rw [printNodeDesc_directory]
    refine ⟨?_, ?_⟩
    · refine bind_done_iff.2 ⟨_, hst, ?_⟩
      rw [getFileInfo_fs]
      dsimp only
      rw [pure_bind_run, hd]
      exact bind_done_iff.2 ⟨_, ha _, h1⟩
    · rw [bind_fs_of_done hst, getFileInfo_fs]
      dsimp only
      rw [pure_bind_run, hd, bind_fs_of_done (ha _)]
      exact h2
  · intro f md5 fs hsync _
    obtain ⟨content, hc, hsum⟩ := hsync _ (mem_nodes_self _)
    have hp : probe fs f.identity = .FileInfoRegular := by simp [probe, hc]
    have hst : (getFileInfo env f.identity fs).status = .done .FileInfoRegular := by
      rw [hinfo, ← hp]; rfl
    have hget : getMD5 env f.identity fs = succeed (.getMD5 f.identity) md5 fs := by
      simp [getMD5, hmd5, hc, hsum]
    have hst2 : (getMD5 env f.identity fs).status = .done md5 := by rw [hget]; rfl
    rw [printNodeDesc_file]
    refine ⟨?_, ?_⟩
    · refine bind_done_iff.2 ⟨_, hst, ?_⟩
      rw [getFileInfo_fs]
      dsimp only
      refine bind_done_iff.2 ⟨_, hst2, ?_⟩
      simp [pure_run]
    · rw [bind_fs_of_done hst, getFileInfo_fs]
      dsimp only
      rw [bind_fs_of_done hst2, getMD5_fs]
      simp [pure_run]
  · intro fs _ _
    rw [printNodeDescSeq_nil]
    exact ⟨rfl, rfl⟩
  · intro n rest ihn ihr fs hsync hacc
    obtain ⟨han, har⟩ := accessibleSeq_cons.1 hacc
    rw [nodesSeq_cons] at hsync
    obtain ⟨h1, h2⟩ := ihn fs (fun m hm => hsync m (List.mem_append_left _ hm)) han
    obtain ⟨h3, h4⟩ := ihr fs (fun m hm => hsync m (List.mem_append_right _ hm)) har
    rw [printNodeDescSeq_cons]
    refine ⟨?_, ?_⟩
    · refine bind_done_iff.2 ⟨_, h1, ?_⟩
      rw [h2]; exact h3
    · rw [bind_fs_of_done h1, h2]
      exact h4

/-! ## More on the chunk loop and on runs over a synced tree -/

theorem requestOffsets_length (chunks : List ByteSeq) :
    ∀ pos, (requestOffsets pos chunks).length = chunks.length + 1 := by
  induction chunks with
  | nil => intro pos; rfl
  | cons c rest ih => intro pos; simp [requestOffsets, ih]

theorem requestOffsets_getElem? (chunks : List ByteSeq) :
    ∀ (pos : Int) (i : Nat), i ≤ chunks.length →
      (requestOffsets pos chunks)[i]? = some (pos + totalSize (chunks.take i)) := by
  induction chunks with
  | nil =>
    intro pos i hi
    have : i = 0 := by simpa using hi
    subst this
    simp [requestOffsets, totalSize]
  | cons c rest ih =>
    intro pos i hi
    cases i with
    | zero => simp [requestOffsets, totalSize]
    | succ j =>
      have hj : j ≤ rest.length := by simpa using hi
      simp only [requestOffsets, List.getElem?_cons_succ, ih _ j hj, List.take_succ_cons]
      simp [totalSize, add_assoc]

theorem justified_synced_chunk {env : Env} {remote : List NodeDesc} {fs : FileSystem}
    (hsync : ∀ n ∈ remote, MatchesOrMissing env fs n) {events : List Event} :
    Justified env remote fs events →
      ∀ ev ∈ events, ∀ p at_ howMuch, ev.call = .getBytesBZ2 p at_ howMuch →
        fs p = none ∧ ∃ n ∈ remote, n.isDirectory = false ∧ n.path = p := by
  induction events with
  | nil => intro _ ev hev; cases hev
  | cons e rest ih =>
    intro hj ev hev p at_ howMuch hcall
    have hnr : e.call.isRepair = false :=
      (justified_synced hsync hj).1 e (List.mem_cons_self _ _)
    have htail := hj.2
    rw [apply_of_not_repair hnr] at htail
    rcases List.mem_cons.1 hev with rfl | hmem
    · have hhead := hj.1
      rw [hcall] at hhead
      exact ⟨probe_notExist hhead.1, hhead.2⟩
    · exact ih htail ev hmem p at_ howMuch hcall

theorem orderly_failure {α : Type} {fs : FileSystem} {r : Result α} (h : Orderly fs r)
    {ev : Event} (hev : ev ∈ r.events) {ex : Exception} (hex : ev.raised = some ex) :
    ∃ pre, r.events = pre ++ [ev] ∧ Clean pre ∧ r.status = .threw ex
      ∧ r.fs = replay fs pre := by
  obtain ⟨hfs, hc | ⟨pre, call, ex2, hevs, hpre, hst⟩⟩ := h
  · have := hc.1 ev hev
    rw [hex] at this
    cases this
  · rw [hevs, List.mem_append, List.mem_singleton] at hev
    rcases hev with hev | hev
    · have := hpre ev hev
      rw [hex] at this
      cases this
    · subst hev
      cases hex
      refine ⟨pre, hevs, hpre, hst, ?_⟩
      rw [hfs, hevs, replay_append]
      cases call <;> rfl

theorem orderly_clean_of_not_threw {α : Type} {fs : FileSystem} {r : Result α}
    (h : Orderly fs r) (hst : ∀ ex, r.status ≠ .threw ex) : Clean r.events := by
  obtain ⟨_, hc | ⟨pre, call, ex2, _, _, hst2⟩⟩ := h
  · exact hc.1
  · exact absurd hst2 (hst ex2)

theorem orderlyProg_descend (env : Env) (fuel : Nat) (p : Path)
    (gc : Except Exception (List NodeDesc)) : OrderlyProg (descend env fuel p gc) := by
  cases gc with
  | error ex => exact orderlyProg_raise _ _
  | ok seq =>
    exact orderlyProg_bind (orderlyProg_answered (.getContents p) rfl)
      (fun _ => (orderlyProg_walk env fuel).2 seq)

theorem orderlyProg_runBody (env : Env) (fuel : Nat) (inv : Invocation) :
    OrderlyProg (runBody env fuel inv) := by
  obtain ⟨args, directory, chdirOk, endpoints, cc, d⟩ := inv
  unfold runBody
  cases cc with
  | error ex => exact orderlyProg_raise _ _
  | ok b =>
    cases b with
    | false =>
      exact orderlyProg_bind (orderlyProg_answered .checkedCast rfl)
        (fun _ => orderlyProg_assertFailed)
    | true =>
      refine orderlyProg_bind (orderlyProg_answered .checkedCast rfl) (fun _ => ?_)
      cases d with
      | error ex => exact orderlyProg_raise _ _
      | ok n =>
        cases n with
        | fileDesc f m =>
          exact orderlyProg_bind (orderlyProg_answered .describe rfl)
            (fun _ => orderlyProg_assertFailed)
        | directoryDesc p gc =>
          refine orderlyProg_bind (orderlyProg_answered .describe rfl) (fun _ => ?_)
          exact orderlyProg_descend env fuel p gc

theorem runBody_done {env : Env} {fuel : Nat} {inv : Invocation} {fs : FileSystem}
    (h : (runBody env fuel inv fs).status = .done ()) :
    ∃ path seq, inv.checkedCast = .ok true
      ∧ inv.describe = .ok (.directoryDesc path (.ok seq))
      ∧ (printNodeDescSeq env fuel seq fs).status = .done () := by
  obtain ⟨args, directory, chdirOk, endpoints, cc, d⟩ := inv
  unfold runBody at h
  cases cc with
  | error ex => simp [raise] at h
  | ok b =>
    cases b with
    | false =>
      obtain ⟨_, _, h2⟩ := bind_done_iff.1 h
      simp [assertFailed] at h2
    | true =>
      obtain ⟨_, _, h2⟩ := bind_done_iff.1 h
      have hfs : (answered .checkedCast fs).fs = fs := rfl
      rw [hfs] at h2
      cases d with
      | error ex => simp [raise] at h2
      | ok n =>
        cases n with
        | fileDesc f m =>
          obtain ⟨_, _, h3⟩ := bind_done_iff.1 h2
          simp [assertFailed] at h3
        | directoryDesc p gc =>
          obtain ⟨_, _, h3⟩ := bind_done_iff.1 h2
          have hfs2 : (answered .describe fs).fs = fs := rfl
          rw [hfs2] at h3
          cases gc with
          | error ex => simp [descend, raise] at h3
          | ok seq =>
            rw [descend] at h3
            obtain ⟨_, _, h4⟩ := bind_done_iff.1 h3
            exact ⟨p, seq, rfl, rfl, h4⟩

theorem run_cases (env : Env) (fuel : Nat) {inv : Invocation} (hargs : inv.args = []) :
    run env fuel inv = pure EXIT_FAILURE
      ∨ run env fuel inv = catchNodeAccess (runBody env fuel inv) := by
  unfold run
  rw [hargs]
  dsimp only
  split
  · exact Or.inl rfl
  · split
    · exact Or.inl rfl
    · exact Or.inr rfl

theorem catchNodeAccess_events (body : Prog Unit) (fs : FileSystem) :
    (catchNodeAccess body fs).events = (body fs).events := by
  unfold catchNodeAccess
  dsimp only
  split <;> rfl

/-! ## The repair table (C1, C2) -/

theorem descend_bind_events_head (env : Env) (fuel : Nat) (p : Path)
    (gc : Except Exception (List NodeDesc)) (k : Unit → Prog Unit) (fs : FileSystem) :
    ∃ raised tail, ((descend env fuel p gc >>= k) fs).events
      = ⟨.getContents p, raised⟩ :: tail := by
  cases gc with
  | error ex =>
    have h : (descend env fuel p (.error ex) fs).status = .threw ex := rfl
    rw [bind_of_threw h]
    exact ⟨some ex, [], rfl⟩
  | ok seq =>
    have hd : descend env fuel p (.ok seq)
        = (answered (.getContents p) >>= fun _ => printNodeDescSeq env fuel seq) := rfl
    have ha : (answered (.getContents p) fs).status = .done () := rfl
    rw [hd, bind_assoc_run, bind_of_done ha]
    exact ⟨none, _, rfl⟩

/-- C1. A directory node anywhere in a sequence that `printNodeDescSeq` walks,
reached after the nodes before it completed, with the primitives at its path
not failing: the walk probes the path, then performs exactly the calls of the
column "Remote is Directory" for the probed state (`directoryRepair`: nothing
for a directory, `createDirectory` for an absent path, `removeRecursive` then
`createDirectory` for a regular file or an unknown entry), then descends, the
next call being `getContents` of the node. None of the repair calls is a chunk
request. -/
theorem directory_node_repair (env : Env) (fuel : Nat) (pre rest : List NodeDesc)
    (p : Path) (gc : Except Exception (List NodeDesc)) (fs : FileSystem)
    (hpre : (printNodeDescSeq env fuel pre fs).status = .done ())
    (hprobe : ∀ fs2, env.fault fs2 (.getFileInfo p) = none)
    (hcreate : ∀ fs2, env.fault fs2 (.createDirectory p) = none)
    (hremove : ∀ fs2, env.fault fs2 (.removeRecursive p) = none) :
    let r0 := printNodeDescSeq env fuel pre fs
    let acts := Event.ok (.getFileInfo p) :: (directoryRepair (probe r0.fs p) p).map Event.ok
    let r1 := (descend env fuel p gc >>= fun _ => printNodeDescSeq env fuel rest)
      (replay r0.fs acts)
    printNodeDescSeq env fuel (pre ++ .directoryDesc p gc :: rest) fs
        = ⟨r1.status, r1.fs, r0.events ++ (acts ++ r1.events)⟩
      ∧ (∃ raised tail, r1.events = ⟨.getContents p, raised⟩ :: tail)
      ∧ ∀ a ∈ directoryRepair (probe r0.fs p) p, a.isChunkRequest = false := by
  intro r0 acts r1
  refine ⟨?_, descend_bind_events_head env fuel p gc _ _, ?_⟩
  · rw [printNodeDescSeq_append, bind_of_done hpre, printNodeDescSeq_cons,
      directory_step_run env fuel p gc rest _ hprobe hcreate hremove]
  · intro a ha
    cases hp : probe r0.fs p <;> rw [hp] at ha <;> simp [directoryRepair] at ha
    all_goals (rcases ha with rfl | rfl <;> rfl)

/-- C1, the third scenario: a regular file at `a` is removed, the directory `a`
is created, then the walk descends into `a`. -/
theorem directory_node_repair_witness :
    let r0 := printNodeDescSeq exampleEnv 2 [] conflictFs
    let acts := Event.ok (.getFileInfo ["a"])
      :: (directoryRepair (probe r0.fs ["a"]) ["a"]).map Event.ok
    let r1 := (descend exampleEnv 2 ["a"] (.ok [.fileDesc exampleFile exampleDigest])
      >>= fun _ => printNodeDescSeq exampleEnv 2 []) (replay r0.fs acts)
    printNodeDescSeq exampleEnv 2
        ([] ++ .directoryDesc ["a"] (.ok [.fileDesc exampleFile exampleDigest]) :: [])
        conflictFs
        = ⟨r1.status, r1.fs, r0.events ++ (acts ++ r1.events)⟩
      ∧ (∃ raised tail, r1.events = ⟨.getContents ["a"], raised⟩ :: tail)
      ∧ ∀ a ∈ directoryRepair (probe r0.fs ["a"]) ["a"], a.isChunkRequest = false :=
  directory_node_repair exampleEnv 2 [] [] ["a"] (.ok [.fileDesc exampleFile exampleDigest])
    conflictFs rfl (fun _ => rfl) (fun _ => rfl) (fun _ => rfl)

/-- C2. A file node anywhere in a sequence that `printNodeDescSeq` walks,
reached after the nodes before it completed, with the primitives at its path
not failing: the walk probes the path, then performs exactly the calls of the
column "Remote is File" for the probed state (`fileRepair`: nothing for an
absent path, `removeRecursive` for a directory or an unknown entry, `getMD5`
for a regular file, followed by `removeRecursive` if the checksum differs), then
calls `getFile` unless the checksum was equal (`fileFetches`), then goes on to
the next node. `getFile` makes chunk requests for this file and no other call,
so no `createDirectory` happens for a file node. -/
theorem file_node_repair (env : Env) (fuel : Nat) (pre rest : List NodeDesc)
    (f : FilePrx) (m : ByteSeq) (fs : FileSystem)
    (hpre : (printNodeDescSeq env fuel pre fs).status = .done ())
    (hprobe : ∀ fs2, env.fault fs2 (.getFileInfo f.identity) = none)
    (hmd5 : ∀ fs2, env.fault fs2 (.getMD5 f.identity) = none)
    (hremove : ∀ fs2, env.fault fs2 (.removeRecursive f.identity) = none) :
    let p := f.identity
    let r0 := printNodeDescSeq env fuel pre fs
    let acts := Event.ok (.getFileInfo p)
      :: (fileRepair env r0.fs (probe r0.fs p) p m).map Event.ok
    let r1 := ((if fileFetches env r0.fs (probe r0.fs p) p m then getFile fuel f else pure ())
      >>= fun _ => printNodeDescSeq env fuel rest) (replay r0.fs acts)
    printNodeDescSeq env fuel (pre ++ .fileDesc f m :: rest) fs
        = ⟨r1.status, r1.fs, r0.events ++ (acts ++ r1.events)⟩
      ∧ (∀ fs2, ∀ ev ∈ (getFile fuel f fs2).events,
          ∃ at_, ev.call = .getBytesBZ2 p at_ (256 * 1024))
      ∧ ∀ a ∈ fileRepair env r0.fs (probe r0.fs p) p m,
          a = .getMD5 p ∨ a = .removeRecursive p := by
  intro p r0 acts r1
  refine ⟨?_, fun fs2 => getFileLoop_events_chunk f fuel 0 fs2, ?_⟩
  · rw [printNodeDescSeq_append, bind_of_done hpre, printNodeDescSeq_cons,
      file_step_run env fuel f m rest _ hprobe hmd5 hremove]
  · intro a ha
    cases hp : probe r0.fs p <;> rw [hp] at ha
    · simp [fileRepair] at ha
    · simp [fileRepair] at ha; exact Or.inr ha
    · unfold fileRepair at ha
      dsimp only at ha
      split at ha
      · simp at ha; exact Or.inl ha
      · simp at ha; exact ha
    · simp [fileRepair] at ha; exact Or.inr ha

/-- C2, on the file node `a/b` met in a working directory that holds a stale
`a/b`. -/
theorem file_node_repair_witness :
    let p := exampleFile.identity
    let r0 := printNodeDescSeq exampleEnv 2 [] extraFs
    let acts := Event.ok (.getFileInfo p)
      :: (fileRepair exampleEnv r0.fs (probe r0.fs p) p exampleDigest).map Event.ok
    let r1 := ((if fileFetches exampleEnv r0.fs (probe r0.fs p) p exampleDigest
        then getFile 2 exampleFile else pure ())
      >>= fun _ => printNodeDescSeq exampleEnv 2 []) (replay r0.fs acts)
    printNodeDescSeq exampleEnv 2 ([] ++ .fileDesc exampleFile exampleDigest :: []) extraFs
        = ⟨r1.status, r1.fs, r0.events ++ (acts ++ r1.events)⟩
      ∧ (∀ fs2, ∀ ev ∈ (getFile 2 exampleFile fs2).events,
          ∃ at_, ev.call = .getBytesBZ2 p at_ (256 * 1024))
      ∧ ∀ a ∈ fileRepair exampleEnv r0.fs (probe r0.fs p) p exampleDigest,
          a = .getMD5 p ∨ a = .removeRecursive p :=
  file_node_repair exampleEnv 2 [] [] exampleFile exampleDigest extraFs rfl
    (fun _ => rfl) (fun _ => rfl) (fun _ => rfl)

/-! ## Convergence, idempotence, the in-sync run (C3, C4, C5) -/

/-- C3 as stated fails: on the first scenario (remote `a/b` with checksum `H`,
empty working directory) the walk completes, yet nothing exists at `a/b`
afterwards, because `getFile` does not store what it fetches. -/
theorem convergence_fails_without_store :
    wellFormedSeq [] exampleTree = true
      ∧ (printNodeDescSeq exampleEnv 2 exampleTree emptyFs).status = .done ()
      ∧ (printNodeDescSeq exampleEnv 2 exampleTree emptyFs).fs ["a", "b"] = none
      ∧ ¬ InSync exampleEnv (printNodeDescSeq exampleEnv 2 exampleTree emptyFs).fs
          exampleTree := by
  refine ⟨by decide, by decide, by decide, ?_⟩
  intro h
  have hmem : NodeDesc.fileDesc exampleFile exampleDigest ∈ nodesSeq exampleTree := by
    simp [exampleTree, nodesSeq, NodeDesc.nodes]
  obtain ⟨content, hc, _⟩ := h _ hmem
  have hnone : (printNodeDescSeq exampleEnv 2 exampleTree emptyFs).fs ["a", "b"] = none := by
    decide
  rw [show exampleFile.identity = ["a", "b"] from rfl, hnone] at hc
  cases hc

/-- C3, amended. For every remote tree whose paths follow the tree and every
initial local filesystem, after `printNodeDescSeq` completes without error every
remote directory's path is a local directory, and every remote file's path is
locally either absent or a regular file whose checksum equals the md5 of its
description. -/
theorem convergence_up_to_missing (env : Env) (fuel : Nat) (base : Path)
    (seq : List NodeDesc) (fs : FileSystem) (hwf : wellFormedSeq base seq = true)
    (hdone : (printNodeDescSeq env fuel seq fs).status = .done ()) :
    SyncedUpToMissing env (printNodeDescSeq env fuel seq fs).fs seq :=
  (walk_converges env fuel).2 seq base fs hwf hdone

/-- C3, amended, on the third scenario (a regular file at `a`). -/
theorem convergence_up_to_missing_witness :
    SyncedUpToMissing exampleEnv (printNodeDescSeq exampleEnv 2 exampleTree conflictFs).fs
      exampleTree :=
  convergence_up_to_missing exampleEnv 2 [] exampleTree conflictFs (by decide) (by decide)

/-- C4 as stated fails: after a first complete run from the empty working
directory, the second run requests the chunks of `a/b` again. -/
theorem second_run_fetches_again :
    wellFormedSeq [] exampleTree = true
      ∧ (printNodeDescSeq exampleEnv 2 exampleTree emptyFs).status = .done ()
      ∧ (printNodeDescSeq exampleEnv 2 exampleTree
          (printNodeDescSeq exampleEnv 2 exampleTree emptyFs).fs).events
        = [Event.ok (.getFileInfo ["a"]), Event.ok (.getContents ["a"]),
            Event.ok (.getFileInfo ["a", "b"]),
            Event.ok (.getBytesBZ2 ["a", "b"] 0 262144),
            Event.ok (.getBytesBZ2 ["a", "b"] 3 262144)] := by
  refine ⟨by decide, by decide, by decide⟩

/-- C4, amended. For every remote tree whose paths follow the tree and every
initial local filesystem, if `printNodeDescSeq` is run to successful completion
and then run again on the filesystem it left, the second run performs no
`createDirectory` and no `removeRecursive` and leaves the filesystem as it
found it; each chunk request of the second run is for a remote file at whose
path nothing exists after the first run. -/
theorem second_run_no_repair (env : Env) (fuel1 fuel2 : Nat) (base : Path)
    (seq : List NodeDesc) (fs : FileSystem) (hwf : wellFormedSeq base seq = true)
    (hdone : (printNodeDescSeq env fuel1 seq fs).status = .done ()) :
    let r1 := printNodeDescSeq env fuel1 seq fs
    let r2 := printNodeDescSeq env fuel2 seq r1.fs
    (∀ ev ∈ r2.events, ev.call.isRepair = false)
      ∧ r2.fs = r1.fs
      ∧ ∀ ev ∈ r2.events, ∀ p at_ howMuch, ev.call = .getBytesBZ2 p at_ howMuch →
          r1.fs p = none ∧ ∃ n ∈ nodesSeq seq, n.isDirectory = false ∧ n.path = p := by
  intro r1 r2
  have hsync : ∀ n ∈ nodesSeq seq, MatchesOrMissing env r1.fs n :=
    (walk_converges env fuel1).2 seq base fs hwf hdone
  have hj : Justified env (nodesSeq seq) r1.fs r2.events :=
    (justified_walk env fuel2).2 seq _ (fun _ h => h) r1.fs
  obtain ⟨h1, h2⟩ := justified_synced hsync hj
  refine ⟨h1, ?_, justified_synced_chunk hsync hj⟩
  rw [show r2.fs = replay r1.fs r2.events from walk_fs_replay env fuel2 seq r1.fs, h2]

/-- C4, amended, on the first scenario. -/
theorem second_run_no_repair_witness :
    let r1 := printNodeDescSeq exampleEnv 2 exampleTree emptyFs
    let r2 := printNodeDescSeq exampleEnv 2 exampleTree r1.fs
    (∀ ev ∈ r2.events, ev.call.isRepair = false)
      ∧ r2.fs = r1.fs
      ∧ ∀ ev ∈ r2.events, ∀ p at_ howMuch, ev.call = .getBytesBZ2 p at_ howMuch →
          r1.fs p = none
            ∧ ∃ n ∈ nodesSeq exampleTree, n.isDirectory = false ∧ n.path = p :=
  second_run_no_repair exampleEnv 2 2 [] exampleTree emptyFs (by decide) (by decide)

/-- C5. If every remote directory's path is a local directory and every remote
file's path is a local regular file with the checksum of its description, the
walk issues no chunk request, performs no `createDirectory` and no
`removeRecursive`, and leaves the local filesystem unchanged; and when probing
and checksumming do not fail and every remote directory answers `getContents`,
it completes successfully. -/
theorem in_sync_run_is_silent (env : Env) (fuel : Nat) (seq : List NodeDesc)
    (fs : FileSystem) (hsync : InSync env fs seq) :
    let r := printNodeDescSeq env fuel seq fs
    (∀ ev ∈ r.events, ev.call.isChunkRequest = false ∧ ev.call.isRepair = false)
      ∧ r.fs = fs
      ∧ ((∀ fs2 p, env.fault fs2 (.getFileInfo p) = none) →
          (∀ fs2 p, env.fault fs2 (.getMD5 p) = none) →
          accessibleSeq seq = true → r.status = .done ()) := by
  intro r
  have hj : Justified env (nodesSeq seq) fs r.events :=
    (justified_walk env fuel).2 seq _ (fun _ h => h) fs
  have hweak : ∀ n ∈ nodesSeq seq, MatchesOrMissing env fs n :=
    fun n hn => matchesOrMissing_of_matches (hsync n hn)
  obtain ⟨h1, h2⟩ := justified_synced hweak hj
  refine ⟨fun ev hev => ⟨justified_inSync_no_chunk hsync hj ev hev, h1 ev hev⟩, ?_, ?_⟩
  · rw [show r.fs = replay fs r.events from walk_fs_replay env fuel seq fs, h2]
  · intro hprobe hmd5 hacc
    exact ((walk_inSync_done env fuel hprobe hmd5).2 seq fs hsync hacc).1

/-- C5, on the second scenario: the working directory already holds `a/b` with
checksum `H`; the run makes no fetch and succeeds, even without fuel. -/
theorem in_sync_run_is_silent_witness :
    (∀ ev ∈ (printNodeDescSeq exampleEnv 0 exampleTree syncedFs).events,
        ev.call.isChunkRequest = false ∧ ev.call.isRepair = false)
      ∧ (printNodeDescSeq exampleEnv 0 exampleTree syncedFs).fs = syncedFs
      ∧ (printNodeDescSeq exampleEnv 0 exampleTree syncedFs).status = .done () :=
  have hsync : InSync exampleEnv syncedFs exampleTree := by
    intro n hn
    simp only [exampleTree, nodesSeq, NodeDesc.nodes, List.append_nil, List.mem_cons,
      List.mem_singleton, List.not_mem_nil, or_false] at hn
    rcases hn with rfl | rfl
    · show syncedFs ["a"] = some .directory
      decide
    · exact ⟨[1, 2, 3], by decide, by decide⟩
  have h := in_sync_run_is_silent exampleEnv 0 exampleTree syncedFs hsync
  ⟨h.1, h.2.1, h.2.2 (fun _ _ => rfl) (fun _ _ => rfl) (by decide)⟩

/-! ## The chunk requests of `getFile` (C6, C7) -/

/-- C6. If the remote file answers the requests at the offsets `0`, `|c0|`,
`|c0| + |c1|`, ... with the non-empty chunks `c0, ..., c(k-1)` and the request at
their total size with the empty chunk, and the total size is below `2^31`, then
`getFile` (given fuel for `k + 1` rounds) returns after exactly `k + 1` requests,
made in this order: the `i`-th at the offset that is the sum of the sizes of the
chunks before it, each for at most `256 * 1024 = 262144` bytes, the last being
the one answered by the empty chunk. -/
theorem getFile_request_sequence (file : FilePrx) (chunks : List ByteSeq) (fuel : Nat)
    (fs : FileSystem) (hans : Answers file 0 chunks) (hsize : totalSize chunks < 2 ^ 31)
    (hfuel : chunks.length < fuel) :
    getFile fuel file fs
        = ⟨.done (), fs, (requestOffsets 0 chunks).map
            (fun o => Event.ok (.getBytesBZ2 file.identity o 262144))⟩
      ∧ (requestOffsets 0 chunks).length = chunks.length + 1
      ∧ (∀ i, i ≤ chunks.length →
          (requestOffsets 0 chunks)[i]? = some ((totalSize (chunks.take i) : Nat) : Int))
      ∧ (256 * 1024 : Int) = 262144 := by
  refine ⟨?_, requestOffsets_length chunks 0, ?_, by norm_num⟩
  · have h := getFileLoop_answers file chunks 0 fuel fs hans (le_refl _)
      (by rw [zero_add]; exact_mod_cast hsize) hfuel
    exact h
  · intro i hi
    rw [requestOffsets_getElem? chunks 0 i hi, zero_add]

/-- C6, on the remote file `a/b`: one chunk of three bytes, then the empty
chunk. -/
theorem getFile_request_sequence_witness :
    getFile 2 exampleFile emptyFs
        = ⟨.done (), emptyFs, (requestOffsets 0 [[1, 2, 3]]).map
            (fun o => Event.ok (.getBytesBZ2 exampleFile.identity o 262144))⟩
      ∧ (requestOffsets 0 [[1, 2, 3]]).length = [[1, 2, 3]].length + 1
      ∧ (∀ i, i ≤ [[1, 2, 3]].length →
          (requestOffsets 0 [[1, 2, 3]])[i]?
            = some ((totalSize ([[1, 2, 3]].take i) : Nat) : Int))
      ∧ (256 * 1024 : Int) = 262144 :=
  getFile_request_sequence exampleFile [[1, 2, 3]] 2 emptyFs
    ⟨by decide, rfl, rfl⟩ (by decide) (by decide)

/-- C7 as stated fails: the remote file `a/b` answers one chunk and then the
empty chunk, `getFile` returns, and no regular file exists at `a/b`. -/
theorem getFile_stores_nothing :
    AnswersInt32 exampleFile 0 [[1, 2, 3]]
      ∧ (getFile 2 exampleFile emptyFs).status = .done ()
      ∧ ¬ ∃ content,
          (getFile 2 exampleFile emptyFs).fs exampleFile.identity = some (.regular content) := by
  refine ⟨⟨by decide, rfl, rfl⟩, by decide, ?_⟩
  rintro ⟨content, hc⟩
  rw [getFile_fs] at hc
  cases hc

/-- C7, amended. For every remote file reference and every sequence of chunk
answers ending in an empty chunk, `getFile` (given fuel for one round per
answer) returns after one request per answer, each a chunk request for this
file, and leaves the local filesystem exactly as it was: the chunks received are
discarded, no file is created or written at the local path. -/
theorem getFile_discards_chunks (file : FilePrx) (chunks : List ByteSeq) (fuel : Nat)
    (fs : FileSystem) (hans : AnswersInt32 file 0 chunks) (hfuel : chunks.length < fuel) :
    (getFile fuel file fs).status = .done ()
      ∧ (getFile fuel file fs).fs = fs
      ∧ (getFile fuel file fs).events.length = chunks.length + 1
      ∧ ∀ ev ∈ (getFile fuel file fs).events,
          ∃ at_, ev.call = .getBytesBZ2 file.identity at_ (256 * 1024) := by
  obtain ⟨h1, h2⟩ := getFileLoop_answersInt32 file chunks 0 fuel fs hans hfuel
  exact ⟨h1, getFile_fs fuel file fs, h2, getFileLoop_events_chunk file fuel 0 fs⟩

/-- C7, amended, on the remote file `a/b` and a working directory with a
stale `a/b`. -/
theorem getFile_discards_chunks_witness :
    (getFile 2 exampleFile extraFs).status = .done ()
      ∧ (getFile 2 exampleFile extraFs).fs = extraFs
      ∧ (getFile 2 exampleFile extraFs).events.length = [[1, 2, 3]].length + 1
      ∧ ∀ ev ∈ (getFile 2 exampleFile extraFs).events,
          ∃ at_, ev.call = .getBytesBZ2 exampleFile.identity at_ (256 * 1024) :=
  getFile_discards_chunks exampleFile [[1, 2, 3]] 2 extraFs ⟨by decide, rfl, rfl⟩ (by decide)

/-! ## Errors (C8, C9) -/

/-- C8. Whenever a call made by the walk fails (a probe, `createDirectory`,
`removeRecursive`, `getMD5`, `getContents` or a chunk request raises `ex`), that
call is the last action of the walk, no action before it failed, the walk ends
by propagating `ex`, and the local filesystem is the one that the actions
completed before the failure produced from the initial one. The actions
completed before the failure include the removals that a failing
`removeRecursive` had carried out already (its `removeStep`s): the tree it was
removing stays removed in part, nothing is undone. -/
theorem failure_aborts_walk (env : Env) (fuel : Nat) (seq : List NodeDesc) (fs : FileSystem)
    (ev : Event) (hev : ev ∈ (printNodeDescSeq env fuel seq fs).events) (ex : Exception)
    (hex : ev.raised = some ex) :
    ∃ pre, (printNodeDescSeq env fuel seq fs).events = pre ++ [ev] ∧ Clean pre
      ∧ (printNodeDescSeq env fuel seq fs).status = .threw ex
      ∧ (printNodeDescSeq env fuel seq fs).fs = replay fs pre :=
  orderly_failure ((orderlyProg_walk env fuel).2 seq fs) hev hex

/-- C8, on a remote file `a` meeting a local directory `a` that holds `a/b` and
`a/x`, in an environment where removing `a` fails after `a/x` is gone: the walk
stops at the failed call, `a/x` stays removed, `a` and `a/b` stay as they
were. -/
theorem failure_aborts_walk_witness :
    (∃ pre, (printNodeDescSeq abortingEnv 2 fileAtA extraFs).events
        = pre ++ [⟨.removeRecursive ["a"], some (.NodeAccessException "cannot remove directory")⟩]
      ∧ Clean pre
      ∧ (printNodeDescSeq abortingEnv 2 fileAtA extraFs).status
        = .threw (.NodeAccessException "cannot remove directory")
      ∧ (printNodeDescSeq abortingEnv 2 fileAtA extraFs).fs = replay extraFs pre)
      ∧ (printNodeDescSeq abortingEnv 2 fileAtA extraFs).events
        = [⟨.getFileInfo ["a"], none⟩, ⟨.removeStep ["a", "x"], none⟩,
            ⟨.removeRecursive ["a"], some (.NodeAccessException "cannot remove directory")⟩]
      ∧ (printNodeDescSeq abortingEnv 2 fileAtA extraFs).fs ["a", "x"] = none
      ∧ (printNodeDescSeq abortingEnv 2 fileAtA extraFs).fs ["a", "b"] = some (.regular [4])
      ∧ (printNodeDescSeq abortingEnv 2 fileAtA extraFs).fs ["a"] = some .directory :=
  ⟨failure_aborts_walk abortingEnv 2 fileAtA extraFs
      ⟨.removeRecursive ["a"], some (.NodeAccessException "cannot remove directory")⟩
      (by decide) (.NodeAccessException "cannot remove directory") rfl,
    by decide, by decide, by decide, by decide⟩

/-- C9 as stated fails: a chunk request that fails in the transport makes `run`
end with that exception leaving it, not with the return value `EXIT_FAILURE`. -/
theorem run_transport_failure_escapes :
    brokenInvocation.args = [] ∧ brokenInvocation.endpoints ≠ ""
      ∧ (∃ ev ∈ (run exampleEnv 2 brokenInvocation emptyFs).events, ev.raised ≠ none)
      ∧ (run exampleEnv 2 brokenInvocation emptyFs).status
        = .threw (.other "Ice::ConnectionLostException")
      ∧ (run exampleEnv 2 brokenInvocation emptyFs).status ≠ .done EXIT_FAILURE := by
  refine ⟨rfl, by decide, ?_, by decide, by decide⟩
  exact ⟨⟨.getBytesBZ2 ["b"] 0 262144, some (.other "Ice::ConnectionLostException")⟩,
    by decide, by decide⟩

/-- C9, amended. For every invocation of `run` without command-line options
(with a non-empty `IcePatch.Endpoints` or not): if obtaining the root
description or a step of the walk fails with a `NodeAccessException`, `run`
returns `EXIT_FAILURE`; if it fails with any other exception, `run` does not
return a status, the exception leaves `run`; and `run` returns `EXIT_SUCCESS`
only when the root description was obtained and the whole walk completed
without a failed call. -/
theorem run_completion_status (env : Env) (fuel : Nat) (inv : Invocation) (fs : FileSystem)
    (hargs : inv.args = []) :
    let r := run env fuel inv fs
    (∀ ev ∈ r.events, ∀ reason, ev.raised = some (.NodeAccessException reason) →
        r.status = .done EXIT_FAILURE)
      ∧ (∀ ev ∈ r.events, ∀ name, ev.raised = some (.other name) →
        r.status = .threw (.other name))
      ∧ (r.status = .done EXIT_SUCCESS →
        Clean r.events ∧ ∃ path seq, inv.describe = .ok (.directoryDesc path (.ok seq))
          ∧ (printNodeDescSeq env fuel seq fs).status = .done ()) := by
  intro r
  rcases run_cases env fuel hargs with hrun | hrun
  · have hr : r = ⟨.done EXIT_FAILURE, fs, []⟩ := by
      show run env fuel inv fs = _
      rw [hrun]; rfl
    rw [hr]
    refine ⟨?_, ?_, ?_⟩
    · intro ev hev; cases hev
    · intro ev hev; cases hev
    · intro hst
      simp [EXIT_SUCCESS, EXIT_FAILURE] at hst
  have hr : r = catchNodeAccess (runBody env fuel inv) fs := by
    show run env fuel inv fs = _
    rw [hrun]
  have ho := orderlyProg_runBody env fuel inv fs
  have hevs : r.events = (runBody env fuel inv fs).events := by
    rw [hr, catchNodeAccess_events]
  refine ⟨?_, ?_, ?_⟩
  · intro ev hev reason hex
    rw [hevs] at hev
    obtain ⟨_, _, _, hst, _⟩ := orderly_failure ho hev hex
    rw [hr]
    simp only [catchNodeAccess, hst]
  · intro ev hev name hex
    rw [hevs] at hev
    obtain ⟨_, _, _, hst, _⟩ := orderly_failure ho hev hex
    rw [hr]
    simp only [catchNodeAccess, hst]
  · intro hst
    rw [hr] at hst
    have hbody : (runBody env fuel inv fs).status = .done () := by
      unfold catchNodeAccess at hst
      dsimp only at hst
      split at hst
      · next u hu => exact hu
      · simp [EXIT_SUCCESS, EXIT_FAILURE] at hst
      · simp at hst
      · simp at hst
      · simp at hst
    refine ⟨?_, ?_⟩
    · rw [hevs]
      refine orderly_clean_of_not_threw ho ?_
      intro ex h
      rw [hbody] at h
      cases h
    · obtain ⟨path, seq, _, hd, hw⟩ := runBody_done hbody
      exact ⟨path, seq, hd, hw⟩

/-- C9, amended, on the invocation whose only file cannot be fetched. -/
theorem run_completion_status_witness :
    let r := run exampleEnv 2 brokenInvocation emptyFs
    (∀ ev ∈ r.events, ∀ reason, ev.raised = some (.NodeAccessException reason) →
        r.status = .done EXIT_FAILURE)
      ∧ (∀ ev ∈ r.events, ∀ name, ev.raised = some (.other name) →
        r.status = .threw (.other name))
      ∧ (r.status = .done EXIT_SUCCESS →
        Clean r.events
          ∧ ∃ path seq, brokenInvocation.describe = .ok (.directoryDesc path (.ok seq))
            ∧ (printNodeDescSeq exampleEnv 2 seq emptyFs).status = .done ()) :=
  run_completion_status exampleEnv 2 brokenInvocation emptyFs rfl

/-! ## The frame of the walk (C10) -/

theorem justified_removeRecursive_at {env : Env} {remote : List NodeDesc} {fs : FileSystem}
    {before after : List Event} {ev : Event} {p : Path}
    (hj : Justified env remote fs (before ++ ev :: after))
    (hcall : ev.call = .removeRecursive p) :
    ∃ n ∈ remote, n.path = p ∧ Conflict env (replay fs before) n := by
  have h := ((justified_append env remote before (ev :: after) fs).1 hj).2.1
  rw [hcall] at h
  exact h

/-- C10. Every `createDirectory` of the walk is at the path of a remote
directory node. Every `removeRecursive` of the walk is at the path of a remote
node with which the local state, as the actions before it have left it, is in
conflict: by kind, or by checksum (`Conflict`). So an entry whose path is not
the path of a remote node and not beneath a path that was removed (by a
`removeRecursive` that returned, or by a `removeStep` of one that failed) is
unchanged; in particular an entry is unchanged if every remote node on the way
to it is a directory node that is locally a directory already. -/
theorem walk_frame_effect (env : Env) (fuel : Nat) (seq : List NodeDesc) (fs : FileSystem) :
    let r := printNodeDescSeq env fuel seq fs
    (∀ ev ∈ r.events, ∀ p, ev.call = .createDirectory p →
        ∃ n ∈ nodesSeq seq, n.isDirectory = true ∧ n.path = p)
      ∧ (∀ before ev after p, r.events = before ++ ev :: after →
          ev.call = .removeRecursive p →
          ∃ n ∈ nodesSeq seq, n.path = p ∧ Conflict env (replay fs before) n)
      ∧ (∀ q, (∀ n ∈ nodesSeq seq, n.path ≠ q) →
          (∀ ev ∈ r.events, ∀ p, ev.call = .removeRecursive p → ev.raised = none →
            ¬ p <+: q) →
          (∀ ev ∈ r.events, ∀ p, ev.call = .removeStep p → ¬ p <+: q) →
          r.fs q = fs q)
      ∧ (∀ q, (∀ n ∈ nodesSeq seq, n.path <+: q →
            n.isDirectory = true ∧ fs n.path = some .directory) →
          r.fs q = fs q) := by
  intro r
  have hj : Justified env (nodesSeq seq) fs r.events :=
    (justified_walk env fuel).2 seq _ (fun _ h => h) fs
  have hfs : r.fs = replay fs r.events := walk_fs_replay env fuel seq fs
  refine ⟨justified_mem_createDirectory hj, ?_, ?_, ?_⟩
  · intro before ev after p hsplit hcall
    rw [hsplit] at hj
    exact justified_removeRecursive_at hj hcall
  · intro q hq hrm hstep
    rw [hfs]
    refine replay_unchanged_at fs ?_ hrm hstep
    intro ev hev hcall
    obtain ⟨n, hn, _, hpath⟩ := justified_mem_createDirectory hj ev hev q hcall
    exact hq n hn hpath
  · intro q hq
    rw [hfs]
    exact justified_matched_directories fs hj hq

/-- C10, on a working directory whose directory `a` holds a stale `a/b` and an
extra entry `a/x`: the walk replaces `a/b` and leaves `a/x` alone. -/
theorem walk_frame_effect_witness :
    (printNodeDescSeq exampleEnv 2 exampleTree extraFs).fs ["a", "x"] = extraFs ["a", "x"] :=
  (walk_frame_effect exampleEnv 2 exampleTree extraFs).2.2.2 ["a", "x"] (by decide)

end IcePatch
